import Mathlib

/-!
# Verification of the chess-AI move-selection core of `react-native-chess`

This file gives a shallow embedding of the `ChessAI` class found in
`src/app/(tabs)/chess.tsx` (the difficulty policy `getBestMove`, the
alpha-beta `minimax` search, the `evaluatePosition` evaluator with its
piece-square tables, and the capture-first move ordering), and proves the
testable properties stated in the design spec about it.

Modelling conventions:
* The external rules engine (`chess.js`) is opaque to the AI component; a
  position is modelled as a tree (`Game`) carrying exactly the data the AI
  queries: the side to move (`turn()`), the 8x8 board array (`board()`,
  row index 0 is the 8th rank), the terminal flags (`isCheckmate()`,
  `isStalemate()`, `isDraw()`), and the verbose legal-move list paired with
  the successor position each move leads to (`moves({verbose:true})`
  followed by `new Chess(fen); move(m)`).
* `Math.random()` is modelled as an oracle stream `rng : Nat → ℚ` together
  with a counter threaded through the computation; each draw consumes one
  index.  The JavaScript contract is `0 ≤ rng i < 1`.
* The wall-clock deadline logic is modelled by a timeout oracle
  `timeout : Nat → Bool` giving the result of the n-th `Date.now() > deadline`
  comparison, with its own threaded counter.  A monotone real clock with a
  fixed deadline yields a monotone oracle.
* JavaScript numbers `-Infinity`/`Infinity` used as initial bounds are
  modelled by the type `XScore` (rationals extended with two infinities);
  all evaluator outputs are finite rationals.
* A JavaScript `Move` object is used by the AI only through its `from`,
  `to`, `promotion` fields and the truthiness of `captured`; it is modelled
  accordingly (`from` is a Lean keyword, so the fields are `fromSq`/`toSq`).
-/

set_option maxRecDepth 100000

/-- The two sides; chess.js `turn()` returns `"w"` or `"b"`. -/
inductive Color where
  | white
  | black
deriving DecidableEq, Repr

/-- `color === "w"` tests used throughout the source. -/
def Color.isWhite : Color → Bool
  | .white => true
  | .black => false

/-- Color swap, used to state the mirror-symmetry property. -/
def Color.swap : Color → Color
  | .white => .black
  | .black => .white

/-- chess.js piece types `p n b r q k`. -/
inductive PieceType where
  | p
  | n
  | b
  | r
  | q
  | k
deriving DecidableEq, Repr

/-- A piece as returned by `board()`: `{ color, type }`. -/
structure Piece where
  color : Color
  ptype : PieceType
deriving DecidableEq, Repr

/-- Color-swapped piece (for the mirror-symmetry property). -/
def Piece.swapColor (p : Piece) : Piece :=
  ⟨p.color.swap, p.ptype⟩

/-- A verbose chess.js move as consumed by the AI: origin and destination
squares, optional promotion, and the truthiness of the `captured`
annotation.  (`from` is reserved in Lean, hence `fromSq`/`toSq`.) -/
structure Move where
  fromSq : String
  toSq : String
  promotion : Option String
  captured : Bool
deriving DecidableEq, Repr

/-- The `AIMove` interface `{ from, to, promotion? }` returned by
`getBestMove`. -/
structure AIMove where
  fromSq : String
  toSq : String
  promotion : Option String
deriving DecidableEq, Repr

/-- Building the returned `AIMove` from a chosen verbose move:
`{ from: m.from, to: m.to, promotion: m.promotion }`. -/
def Move.toAIMove (m : Move) : AIMove :=
  ⟨m.fromSq, m.toSq, m.promotion⟩

/-- The difficulty tiers. -/
inductive Difficulty where
  | easy
  | medium
  | hard
deriving DecidableEq, Repr

/-- The `AISettings` interface.  `timeLimitMs` only enters the computation
through the `deadline`, which the timeout oracle absorbs, but it is kept
for fidelity. -/
structure AISettings where
  depth : Nat
  difficulty : Difficulty
  timeLimitMs : Nat
deriving DecidableEq, Repr

/-- The ambient impure environment of a `getBestMove` call: the settings
object and the two oracles (`Math.random()` draws and
`Date.now() > deadline` comparisons). -/
structure Env where
  settings : AISettings
  rng : Nat → ℚ
  timeout : Nat → Bool

/-- JavaScript numbers as used by the search: finite scores are rationals,
and `-Infinity` / `Infinity` appear as initial bounds. -/
inductive XScore where
  | negInf
  | fin (q : ℚ)
  | posInf
deriving DecidableEq, Repr

namespace XScore

/-- The numeric order on `XScore`. -/
protected def le : XScore → XScore → Prop
  | .negInf, _ => True
  | .fin _, .negInf => False
  | .fin a, .fin b => a ≤ b
  | .fin _, .posInf => True
  | .posInf, .posInf => True
  | .posInf, _ => False

instance : LE XScore := ⟨XScore.le⟩

instance : DecidableRel (· ≤ · : XScore → XScore → Prop) := by
  intro a b
  cases a <;> cases b <;> simp only [LE.le, XScore.le] <;> infer_instance

instance : LinearOrder XScore where
  le := XScore.le
  le_refl a := by
    cases a
    · exact trivial
    · (rename_i x
       exact le_refl x)
    · exact trivial
  le_trans a b c hab hbc := by
    cases a <;> cases b <;> cases c <;>
      first
      | exact trivial
      | exact hab.elim
      | exact hbc.elim
      | (rename_i x y z
         exact le_trans (show x ≤ y from hab) (show y ≤ z from hbc))
  le_antisymm a b hab hba := by
    cases a <;> cases b <;>
      first
      | rfl
      | exact hab.elim
      | exact hba.elim
      | (rename_i x y
         exact congrArg XScore.fin (le_antisymm (show x ≤ y from hab) (show y ≤ x from hba)))
  le_total a b := by
    cases a <;> cases b <;>
      first
      | exact Or.inl trivial
      | exact Or.inr trivial
      | (rename_i x y
         exact le_total x y)
  decidableLE := inferInstance

end XScore

/-- A position as seen through the rules-engine (chess.js) interface used
by the AI.  A node carries the side to move, the `board()` array (row
index 0 is the 8th rank, as rendered by chess.js), the terminal flags, and
the verbose legal-move list, each move paired with the position obtained
by applying it (`new Chess(game.fen())` followed by `.move(m)`). -/
inductive Game where
  | mk (turn : Color) (board : Fin 8 → Fin 8 → Option Piece)
      (checkmate stalemate draw : Bool)
      (legal : List (Move × Game))

namespace Game

/-- `game.turn()`. -/
def turn : Game → Color
  | .mk t _ _ _ _ _ => t

/-- `game.board()`. -/
def board : Game → (Fin 8 → Fin 8 → Option Piece)
  | .mk _ b _ _ _ _ => b

/-- `game.isCheckmate()`. -/
def checkmate : Game → Bool
  | .mk _ _ cm _ _ _ => cm

/-- `game.isStalemate()`. -/
def stalemate : Game → Bool
  | .mk _ _ _ sm _ _ => sm

/-- `game.isDraw()`. -/
def draw : Game → Bool
  | .mk _ _ _ _ dr _ => dr

/-- `game.moves({ verbose: true })`, paired with the successor position of
each move. -/
def legal : Game → List (Move × Game)
  | .mk _ _ _ _ _ l => l

/-- `game.isGameOver()`: checkmate, stalemate or draw. -/
def isGameOver (g : Game) : Bool :=
  g.checkmate || g.stalemate || g.draw

/-- Well-formedness of a rules-engine tree, as guaranteed by actual chess:
a position with no legal moves is game over (checkmate or stalemate), and
subtrees are well-formed. -/
def wf : Game → Bool
  | .mk _ _ cm sm dr l =>
    (cm || sm || dr || !l.isEmpty) && wfList l
where
  /-- Well-formedness of all successor positions of a move list. -/
  wfList : List (Move × Game) → Bool
  | [] => true
  | c :: cs => c.2.wf && wfList cs

end Game

/-- `PIECE_VALUES`: material value per piece type. -/
def PIECE_VALUES : PieceType → ℚ
  | .p => 1
  | .n => 3
  | .b => 3
  | .r => 5
  | .q => 9
  | .k => 100

/-- `PAWN_POSITION_VALUES`. -/
def PAWN_POSITION_VALUES : Fin 8 → Fin 8 → ℚ :=
  ![![0, 0, 0, 0, 0, 0, 0, 0],
    ![5, 5, 5, 5, 5, 5, 5, 5],
    ![1, 1, 2, 3, 3, 2, 1, 1],
    ![0.5, 0.5, 1, 2.5, 2.5, 1, 0.5, 0.5],
    ![0, 0, 0, 2, 2, 0, 0, 0],
    ![0.5, -0.5, -1, 0, 0, -1, -0.5, 0.5],
    ![0.5, 1, 1, -2, -2, 1, 1, 0.5],
    ![0, 0, 0, 0, 0, 0, 0, 0]]

/-- `KNIGHT_POSITION_VALUES`. -/
def KNIGHT_POSITION_VALUES : Fin 8 → Fin 8 → ℚ :=
  ![![-5, -4, -3, -3, -3, -3, -4, -5],
    ![-4, -2, 0, 0, 0, 0, -2, -4],
    ![-3, 0, 1, 1.5, 1.5, 1, 0, -3],
    ![-3, 0.5, 1.5, 2, 2, 1.5, 0.5, -3],
    ![-3, 0, 1.5, 2, 2, 1.5, 0, -3],
    ![-3, 0.5, 1, 1.5, 1.5, 1, 0.5, -3],
    ![-4, -2, 0, 0.5, 0.5, 0, -2, -4],
    ![-5, -4, -3, -3, -3, -3, -4, -5]]

/-- `BISHOP_POSITION_VALUES`. -/
def BISHOP_POSITION_VALUES : Fin 8 → Fin 8 → ℚ :=
  ![![-2, -1, -1, -1, -1, -1, -1, -2],
    ![-1, 0, 0, 0, 0, 0, 0, -1],
    ![-1, 0, 0.5, 1, 1, 0.5, 0, -1],
    ![-1, 0.5, 0.5, 1, 1, 0.5, 0.5, -1],
    ![-1, 0, 1, 1, 1, 1, 0, -1],
    ![-1, 1, 1, 1, 1, 1, 1, -1],
    ![-1, 0.5, 0, 0, 0, 0, 0.5, -1],
    ![-2, -1, -1, -1, -1, -1, -1, -2]]

/-- `ROOK_POSITION_VALUES`. -/
def ROOK_POSITION_VALUES : Fin 8 → Fin 8 → ℚ :=
  ![![0, 0, 0, 0, 0, 0, 0, 0],
    ![0.5, 1, 1, 1, 1, 1, 1, 0.5],
    ![-0.5, 0, 0, 0, 0, 0, 0, -0.5],
    ![-0.5, 0, 0, 0, 0, 0, 0, -0.5],
    ![-0.5, 0, 0, 0, 0, 0, 0, -0.5],
    ![-0.5, 0, 0, 0, 0, 0, 0, -0.5],
    ![-0.5, 0, 0, 0, 0, 0, 0, -0.5],
    ![0, 0, 0, 0.5, 0.5, 0, 0, 0]]

/-- `QUEEN_POSITION_VALUES`. -/
def QUEEN_POSITION_VALUES : Fin 8 → Fin 8 → ℚ :=
  ![![-2, -1, -1, -0.5, -0.5, -1, -1, -2],
    ![-1, 0, 0, 0, 0, 0, 0, -1],
    ![-1, 0, 0.5, 0.5, 0.5, 0.5, 0, -1],
    ![-0.5, 0, 0.5, 0.5, 0.5, 0.5, 0, -0.5],
    ![0, 0, 0.5, 0.5, 0.5, 0.5, 0, -0.5],
    ![-1, 0.5, 0.5, 0.5, 0.5, 0.5, 0, -1],
    ![-1, 0, 0.5, 0, 0, 0, 0, -1],
    ![-2, -1, -1, -0.5, -0.5, -1, -1, -2]]

/-- `KING_POSITION_VALUES`. -/
def KING_POSITION_VALUES : Fin 8 → Fin 8 → ℚ :=
  ![![-3, -4, -4, -5, -5, -4, -4, -3],
    ![-3, -4, -4, -5, -5, -4, -4, -3],
    ![-3, -4, -4, -5, -5, -4, -4, -3],
    ![-3, -4, -4, -5, -5, -4, -4, -3],
    ![-2, -3, -3, -4, -4, -3, -3, -2],
    ![-1, -2, -2, -2, -2, -2, -2, -1],
    ![2, 2, 0, 0, 0, 0, 2, 2],
    ![2, 3, 1, 0, 0, 1, 3, 2]]

/-- `ChessAI.getPositionTable`: table per piece type.  (The source's
`default` branch returning an all-zero table is unreachable: the six
chess.js piece types are exhaustive.) -/
def getPositionTable : PieceType → (Fin 8 → Fin 8 → ℚ)
  | .p => PAWN_POSITION_VALUES
  | .n => KNIGHT_POSITION_VALUES
  | .b => BISHOP_POSITION_VALUES
  | .r => ROOK_POSITION_VALUES
  | .q => QUEEN_POSITION_VALUES
  | .k => KING_POSITION_VALUES

/-- `ChessAI.getPositionValue`: positional bonus for `piece` standing on
`board()[rank][file]`.  `actualRank = piece.color === "w" ? 7 - rank : rank`;
`Fin.rev` is exactly `7 - rank` on `Fin 8`. -/
def getPositionValue (piece : Piece) (rank file : Fin 8) : ℚ :=
  let positionValues := getPositionTable piece.ptype
  let actualRank := if piece.color = .white then rank.rev else rank
  positionValues actualRank file

/-- The contribution of one square to the evaluation loop of
`ChessAI.evaluatePosition`: `pieceValue + positionValue`, added for White
pieces and subtracted for Black pieces, `0` for an empty square. -/
def squareScore (g : Game) (rank file : Fin 8) : ℚ :=
  match g.board rank file with
  | none => 0
  | some piece =>
    let pieceValue := PIECE_VALUES piece.ptype
    let positionValue := getPositionValue piece rank file
    let totalValue := pieceValue + positionValue
    if piece.color = .white then totalValue else -totalValue

/-- The double `for` loop of `ChessAI.evaluatePosition`: sum of the square
contributions over the whole board. -/
def staticScore (g : Game) : ℚ :=
  ∑ rank : Fin 8, ∑ file : Fin 8, squareScore g rank file

/-- `ChessAI.evaluatePosition`.  Returns the score together with the
updated random-draw counter: the easy and medium tiers consume one
`Math.random()` draw (`(Math.random() - 0.5) * 2` resp. `* 1`), the
terminal branches and the hard tier consume none. -/
def evaluatePosition (diff : Difficulty) (rng : Nat → ℚ) (g : Game) (ri : Nat) :
    ℚ × Nat :=
  if g.checkmate then
    (if g.turn = .white then -1000 else 1000, ri)
  else if g.draw then
    (0, ri)
  else
    let score := staticScore g
    match diff with
    | .easy => (score + (rng ri - 0.5) * 2, ri + 1)
    | .medium => (score + (rng ri - 0.5) * 1, ri + 1)
    | .hard => (score, ri)

/-- The capture-first move ordering
`[...moves].sort((a, b) => (b.captured ? 1 : 0) - (a.captured ? 1 : 0))`.
JavaScript `Array.prototype.sort` is a stable sort; `a` may precede `b`
exactly when the comparator is `≤ 0`, i.e. when `(b.captured) ≤ (a.captured)`
as 0/1 values.  It is modelled by the standard stable merge sort with that
relation. -/
def orderMoves (moves : List (Move × Game)) : List (Move × Game) :=
  moves.mergeSort (fun a b => !b.1.captured || a.1.captured)

mutual

/-- `ChessAI.minimax(game, depth, isMaximizing, alpha, beta, deadline)`.
The entry `Date.now() > deadline` comparison always consumes one timeout
index; the base case returns `evaluatePosition`. -/
def minimax (env : Env) (g : Game) (depth : Nat) (isMaximizing : Bool)
    (alpha beta : XScore) (ri ti : Nat) : XScore × Nat × Nat :=
  if h : env.timeout ti || depth == 0 || g.isGameOver then
    let ev := evaluatePosition env.settings.difficulty env.rng g ri
    (.fin ev.1, ev.2, ti + 1)
  else
    let moves := orderMoves g.legal
    if isMaximizing then
      maxLoop env moves (depth - 1) .negInf alpha beta ri (ti + 1)
    else
      minLoop env moves (depth - 1) .posInf alpha beta ri (ti + 1)
termination_by (depth, 0)
decreasing_by
  all_goals
    simp only [Bool.or_eq_true, beq_iff_eq, not_or] at h
    omega

/-- The maximizing loop of `ChessAI.minimax`: recursive calls at depth
`childDepth = depth - 1`, running `maxEval`/`alpha`, `break` on
`beta <= alpha`. -/
def maxLoop (env : Env) (cs : List (Move × Game)) (childDepth : Nat)
    (maxEval alpha beta : XScore) (ri ti : Nat) : XScore × Nat × Nat :=
  match cs with
  | [] => (maxEval, ri, ti)
  | c :: rest =>
    let r := minimax env c.2 childDepth false alpha beta ri ti
    let maxEval' := max maxEval r.1
    let alpha' := max alpha r.1
    if beta ≤ alpha' then (maxEval', r.2.1, r.2.2)
    else maxLoop env rest childDepth maxEval' alpha' beta r.2.1 r.2.2
termination_by (childDepth, cs.length + 1)

/-- The minimizing loop of `ChessAI.minimax`: running `minEval`/`beta`,
`break` on `beta <= alpha`. -/
def minLoop (env : Env) (cs : List (Move × Game)) (childDepth : Nat)
    (minEval alpha beta : XScore) (ri ti : Nat) : XScore × Nat × Nat :=
  match cs with
  | [] => (minEval, ri, ti)
  | c :: rest =>
    let r := minimax env c.2 childDepth true alpha beta ri ti
    let minEval' := min minEval r.1
    let beta' := min beta r.1
    if beta' ≤ alpha then (minEval', r.2.1, r.2.2)
    else minLoop env rest childDepth minEval' alpha beta' r.2.1 r.2.2
termination_by (childDepth, cs.length + 1)

end

/-- The medium-tier loop of `ChessAI.getBestMove`: one-ply lookahead,
evaluating each successor position directly and keeping the first strictly
better move. -/
def mediumLoop (diff : Difficulty) (rng : Nat → ℚ) (isWhite : Bool) :
    List (Move × Game) → Option Move → XScore → Nat → Option Move × XScore × Nat
  | [], best, bestScore, ri => (best, bestScore, ri)
  | c :: rest, best, bestScore, ri =>
    let ev := evaluatePosition diff rng c.2 ri
    if isWhite then
      if bestScore < .fin ev.1 then
        mediumLoop diff rng isWhite rest (some c.1) (.fin ev.1) ev.2
      else
        mediumLoop diff rng isWhite rest best bestScore ev.2
    else
      if .fin ev.1 < bestScore then
        mediumLoop diff rng isWhite rest (some c.1) (.fin ev.1) ev.2
      else
        mediumLoop diff rng isWhite rest best bestScore ev.2

/-- The per-depth root-move loop of the hard tier of `ChessAI.getBestMove`:
`if (Date.now() > deadline) break;` then a full-window `minimax` call on
the successor, maximizing flag `newGame.turn() === "w"`, tracking the
first strictly better move. -/
def rootLoop (env : Env) (d : Nat) (isRootWhite : Bool) :
    List (Move × Game) → Option Move → XScore → Nat → Nat →
      Option Move × XScore × Nat × Nat
  | [], best, bestScore, ri, ti => (best, bestScore, ri, ti)
  | c :: rest, best, bestScore, ri, ti =>
    if env.timeout ti then (best, bestScore, ri, ti + 1)
    else
      let r := minimax env c.2 (d - 1) c.2.turn.isWhite .negInf .posInf ri (ti + 1)
      if isRootWhite then
        if bestScore < r.1 then
          rootLoop env d isRootWhite rest (some c.1) r.1 r.2.1 r.2.2
        else
          rootLoop env d isRootWhite rest best bestScore r.2.1 r.2.2
      else
        if r.1 < bestScore then
          rootLoop env d isRootWhite rest (some c.1) r.1 r.2.1 r.2.2
        else
          rootLoop env d isRootWhite rest best bestScore r.2.1 r.2.2

/-- The iterative-deepening loop of the hard tier of `ChessAI.getBestMove`
over the depth list `[1, ..., settings.depth]`: after each depth the best
move found at that depth (if any) overwrites `selectedMove`, then
`if (Date.now() > deadline) break;`. -/
def hardDepths (env : Env) (orderedMoves : List (Move × Game)) (isRootWhite : Bool) :
    List Nat → Option Move → Nat → Nat → Option Move × Nat × Nat
  | [], selectedMove, ri, ti => (selectedMove, ri, ti)
  | d :: ds, selectedMove, ri, ti =>
    let r := rootLoop env d isRootWhite orderedMoves none
      (if isRootWhite then .negInf else .posInf) ri ti
    let selectedMove' := match r.1 with
      | some m => some m
      | none => selectedMove
    if env.timeout r.2.2.2 then (selectedMove', r.2.2.1, r.2.2.2 + 1)
    else hardDepths env orderedMoves isRootWhite ds selectedMove' r.2.2.1 (r.2.2.2 + 1)

/-- `ChessAI.getBestMove(game)`.  Returns `null` when there are no legal
moves; otherwise dispatches on the difficulty tier:
* easy: prefer captures, pick pseudo-randomly from the pool
  (`pool[Math.floor(Math.random() * pool.length)]`; an out-of-contract
  random value yields JavaScript `undefined`, modelled by `none`);
* medium: one-ply lookahead over capture-first ordered moves;
* hard: iterative deepening over depths `1..settings.depth` with the soft
  deadline. -/
def getBestMove (env : Env) (g : Game) (ri ti : Nat) : Option AIMove × Nat × Nat :=
  match g.legal with
  | [] => (none, ri, ti)
  | m0 :: rest =>
    let moves := m0 :: rest
    match env.settings.difficulty with
    | .easy =>
      let capturing := moves.filter (fun m => m.1.captured)
      let pool := if !capturing.isEmpty then capturing else moves
      let idx := (⌊env.rng ri * (pool.length : ℚ)⌋).toNat
      ((pool[idx]?).map (fun c => c.1.toAIMove), ri + 1, ti)
    | .medium =>
      let isWhite := g.turn.isWhite
      let ordered := orderMoves moves
      let res := mediumLoop env.settings.difficulty env.rng isWhite ordered none
        (if isWhite then .negInf else .posInf) ri
      match res.1 with
      | some bestMove => (some bestMove.toAIMove, res.2.2, ti)
      | none => (some m0.1.toAIMove, res.2.2, ti)
    | .hard =>
      let isRootWhite := g.turn.isWhite
      let orderedMoves := orderMoves moves
      let res := hardDepths env orderedMoves isRootWhite
        (List.range' 1 env.settings.depth) none ri ti
      (res.1.map Move.toAIMove, res.2.1, res.2.2)

/-- The hard-tier (noise-free) value of `evaluatePosition`: terminal scores
±1000 / 0, otherwise the board sum. -/
def evalHard (g : Game) : ℚ :=
  if g.checkmate then (if g.turn = .white then -1000 else 1000)
  else if g.draw then 0
  else staticScore g

mutual

/-- `ChessAI.minimax` specialised to the hard tier with a deadline that is
never exceeded: no state, evaluation is `evalHard`.  Same alpha-beta
pruning as `minimax`. -/
def minimaxPure (g : Game) (depth : Nat) (isMaximizing : Bool)
    (alpha beta : XScore) : XScore :=
  if h : depth = 0 ∨ g.isGameOver then .fin (evalHard g)
  else
    let moves := orderMoves g.legal
    if isMaximizing then maxLoopPure moves (depth - 1) .negInf alpha beta
    else minLoopPure moves (depth - 1) .posInf alpha beta
termination_by (depth, 0)
decreasing_by
  all_goals
    simp only [not_or] at h
    omega

/-- Maximizing loop of `minimaxPure`. -/
def maxLoopPure (cs : List (Move × Game)) (childDepth : Nat)
    (maxEval alpha beta : XScore) : XScore :=
  match cs with
  | [] => maxEval
  | c :: rest =>
    let e := minimaxPure c.2 childDepth false alpha beta
    let maxEval' := max maxEval e
    let alpha' := max alpha e
    if beta ≤ alpha' then maxEval' else maxLoopPure rest childDepth maxEval' alpha' beta
termination_by (childDepth, cs.length + 1)

/-- Minimizing loop of `minimaxPure`. -/
def minLoopPure (cs : List (Move × Game)) (childDepth : Nat)
    (minEval alpha beta : XScore) : XScore :=
  match cs with
  | [] => minEval
  | c :: rest =>
    let e := minimaxPure c.2 childDepth true alpha beta
    let minEval' := min minEval e
    let beta' := min beta e
    if beta' ≤ alpha then minEval' else minLoopPure rest childDepth minEval' alpha beta'
termination_by (childDepth, cs.length + 1)

end

mutual

/-- Modelled from the spec's words (§4.3, alpha-beta equivalence property):
the *unpruned* full minimax over the same game tree, with the same
capture-first move ordering and the same evaluation, but no alpha-beta
window and no pruning.  This is the reference function the pruned search
is compared against. -/
def specMinimax (g : Game) (depth : Nat) (isMaximizing : Bool) : XScore :=
  if h : depth = 0 ∨ g.isGameOver then .fin (evalHard g)
  else
    let moves := orderMoves g.legal
    if isMaximizing then specFoldMax moves (depth - 1) .negInf
    else specFoldMin moves (depth - 1) .posInf
termination_by (depth, 0)
decreasing_by
  all_goals
    simp only [not_or] at h
    omega

/-- Max of the unpruned child values. -/
def specFoldMax (cs : List (Move × Game)) (childDepth : Nat) (acc : XScore) : XScore :=
  match cs with
  | [] => acc
  | c :: rest => specFoldMax rest childDepth (max acc (specMinimax c.2 childDepth false))
termination_by (childDepth, cs.length + 1)

/-- Min of the unpruned child values. -/
def specFoldMin (cs : List (Move × Game)) (childDepth : Nat) (acc : XScore) : XScore :=
  match cs with
  | [] => acc
  | c :: rest => specFoldMin rest childDepth (min acc (specMinimax c.2 childDepth true))
termination_by (childDepth, cs.length + 1)

end

/-- Root selection over the unpruned values `specMinimax`, with the same
capture-first ordering and the same first-strictly-better tie-break as the
root loop of `getBestMove`. -/
def specBestLoop (isRootWhite : Bool) (d : Nat) :
    List (Move × Game) → Option Move → XScore → Option Move × XScore
  | [], best, bestScore => (best, bestScore)
  | c :: rest, best, bestScore =>
    let s := specMinimax c.2 (d - 1) c.2.turn.isWhite
    if isRootWhite then
      if bestScore < s then specBestLoop isRootWhite d rest (some c.1) s
      else specBestLoop isRootWhite d rest best bestScore
    else
      if s < bestScore then specBestLoop isRootWhite d rest (some c.1) s
      else specBestLoop isRootWhite d rest best bestScore

/-- Modelled from the spec's words: the move chosen by a single unpruned
full-minimax pass at depth `d` (capture-first ordering, first
strictly-better tie-break, maximize iff the root side is White). -/
def fullMinimaxChoice (g : Game) (d : Nat) : Option AIMove :=
  match g.legal with
  | [] => none
  | m0 :: rest =>
    let isRootWhite := g.turn.isWhite
    ((specBestLoop isRootWhite d (orderMoves (m0 :: rest)) none
      (if isRootWhite then .negInf else .posInf)).1).map Move.toAIMove

/-- The color-mirrored counterpart of a position: every piece's rank is
mirrored (`board()` row `r` becomes row `7 - r`) and its side swapped, the
side to move is swapped, and the terminal flags are preserved (chess is
color-symmetric), recursively in all successors. -/
def Game.mirror : Game → Game
  | .mk t b cm sm dr l =>
    .mk t.swap (fun r f => (b r.rev f).map Piece.swapColor) cm sm dr (mirrorList l)
where
  /-- Mirror of all successor positions. -/
  mirrorList : List (Move × Game) → List (Move × Game)
  | [] => []
  | c :: cs => (c.1, c.2.mirror) :: mirrorList cs

/-! Concrete positions used to witness the theorems on explicit inputs. -/

/-- An empty `board()` array (only the structure of the game tree matters
for these witnesses; evaluation sums over it are `0`). -/
def emptyBoard : Fin 8 → Fin 8 → Option Piece := fun _ _ => none

/-- A checkmated position, Black to move (White has just mated). -/
def wMateBlack : Game := .mk .black emptyBoard true false false []

/-- A checkmated position, White to move (Black has just mated). -/
def wMateWhite : Game := .mk .white emptyBoard true false false []

/-- A drawn position. -/
def wDraw : Game := .mk .white emptyBoard false false true []

/-- A quiet successor (Black to move, not terminal, one legal reply into a
draw) used as the non-mating alternative in the witnesses. -/
def wQuiet : Game := .mk .black emptyBoard false false false [(⟨"e7", "e6", none, false⟩, wDraw)]

/-- A one-move root: White to move, a single non-capture that delivers
mate. -/
def wRoot1 : Game := .mk .white emptyBoard false false false
  [(⟨"d1", "h5", none, false⟩, wMateBlack)]

/-- A two-move root: White to move; a quiet move first, then a mating
move. -/
def wRoot2 : Game := .mk .white emptyBoard false false false
  [(⟨"a2", "a3", none, false⟩, wQuiet), (⟨"d1", "h5", none, false⟩, wMateBlack)]

/-- The mate-in-2 line of the counterexample: after White's capture
`h1h7`, Black's only reply `g8h8` runs into `h7h8` mate. -/
def cG3 : Game := .mk .black emptyBoard true false false []

/-- Second node of the forced line (White to move, mates in one). -/
def cG2 : Game := .mk .white emptyBoard false false false [(⟨"h7", "h8", none, false⟩, cG3)]

/-- First node of the forced line (Black to move, single forced reply). -/
def cG1 : Game := .mk .black emptyBoard false false false [(⟨"g8", "h8", none, false⟩, cG2)]

/-- The immediately mating successor of the counterexample root. -/
def cGMate : Game := .mk .black emptyBoard true false false []

/-- Counterexample root: White has a mate-in-1 (`d1h5`), but also a capture
(`h1h7`) that forces mate in two; the capture is ordered first and reaches
the same +1000 score at search depth 3, so the first-strictly-better
tie-break keeps the non-mating capture. -/
def cRoot : Game := .mk .white emptyBoard false false false
  [(⟨"h1", "h7", none, true⟩, cG1), (⟨"d1", "h5", none, false⟩, cGMate)]

/-- Window clamp used to state alpha-beta correctness: values outside
`[α, β]` are indistinguishable to a caller with that window. -/
def clamp (α β x : XScore) : XScore := max α (min x β)

/-! ## Basic lemmas -/

namespace XScore

@[simp] theorem negInf_le (x : XScore) : negInf ≤ x := by
  cases x <;> trivial

@[simp] theorem le_posInf (x : XScore) : x ≤ posInf := by
  cases x <;> trivial

@[simp] theorem fin_le_fin {a b : ℚ} : (fin a ≤ fin b) ↔ a ≤ b := Iff.rfl

@[simp] theorem not_posInf_le_fin (q : ℚ) : ¬ (posInf ≤ fin q) := by
  intro h; exact h

@[simp] theorem not_posInf_le_negInf : ¬ (posInf ≤ negInf) := by
  intro h; exact h

@[simp] theorem not_fin_le_negInf (q : ℚ) : ¬ (fin q ≤ negInf) := by
  intro h; exact h

@[simp] theorem fin_lt_fin {a b : ℚ} : (fin a < fin b) ↔ a < b := by
  constructor
  · intro h
    exact lt_of_le_not_le h.le (fun hba => h.not_le hba)
  · intro h
    exact lt_of_le_not_le h.le (fun hba => absurd hba h.not_le)

@[simp] theorem negInf_lt_fin (q : ℚ) : negInf < fin q := by
  apply lt_of_le_not_le (negInf_le _)
  simp

@[simp] theorem fin_lt_posInf (q : ℚ) : fin q < posInf := by
  apply lt_of_le_not_le (le_posInf _)
  simp

@[simp] theorem negInf_lt_posInf : negInf < posInf := by
  apply lt_of_le_not_le (negInf_le _)
  simp

@[simp] theorem not_lt_negInf (x : XScore) : ¬ x < negInf := by
  intro h
  exact absurd (negInf_le x) h.not_le

@[simp] theorem not_posInf_lt (x : XScore) : ¬ posInf < x := by
  intro h
  exact absurd (le_posInf x) h.not_le

@[simp] theorem max_fin_fin (a b : ℚ) : max (fin a) (fin b) = fin (max a b) := by
  rcases le_total a b with h | h
  · rw [max_eq_right h, max_eq_right (fin_le_fin.mpr h)]
  · rw [max_eq_left h, max_eq_left (fin_le_fin.mpr h)]

@[simp] theorem min_fin_fin (a b : ℚ) : min (fin a) (fin b) = fin (min a b) := by
  rcases le_total a b with h | h
  · rw [min_eq_left h, min_eq_left (fin_le_fin.mpr h)]
  · rw [min_eq_right h, min_eq_right (fin_le_fin.mpr h)]

@[simp] theorem max_negInf (x : XScore) : max negInf x = x :=
  max_eq_right (negInf_le x)

@[simp] theorem max_negInf_right (x : XScore) : max x negInf = x :=
  max_eq_left (negInf_le x)

@[simp] theorem min_posInf (x : XScore) : min posInf x = x :=
  min_eq_right (le_posInf x)

@[simp] theorem min_posInf_right (x : XScore) : min x posInf = x :=
  min_eq_left (le_posInf x)

end XScore

namespace Game

@[simp] theorem turn_mk (t b cm sm dr l) : turn (.mk t b cm sm dr l) = t := rfl

@[simp] theorem board_mk (t b cm sm dr l) : board (.mk t b cm sm dr l) = b := rfl

@[simp] theorem checkmate_mk (t b cm sm dr l) : checkmate (.mk t b cm sm dr l) = cm := rfl

@[simp] theorem stalemate_mk (t b cm sm dr l) : stalemate (.mk t b cm sm dr l) = sm := rfl

@[simp] theorem draw_mk (t b cm sm dr l) : draw (.mk t b cm sm dr l) = dr := rfl

@[simp] theorem legal_mk (t b cm sm dr l) : legal (.mk t b cm sm dr l) = l := rfl

end Game


/-! ## Evaluation lemmas: C2, C3, C10 -/

/-- **C2**: the positional bonus lookup reads the piece kind's table
indexed by (rank, file) oriented from White's perspective.  Writing `w`
for the rank index measured from White's side (so the square sits in row
`w.rev = 7 - w` of the `board()` array), a White piece reads table row `w`
(not mirrored) and a Black piece reads the mirrored row `w.rev`. -/
theorem positionValue_orientation (kind : PieceType) (w f : Fin 8) :
    getPositionValue ⟨.white, kind⟩ w.rev f = getPositionTable kind w f ∧
    getPositionValue ⟨.black, kind⟩ w.rev f = getPositionTable kind w.rev f := by
  constructor
  · simp [getPositionValue]
  · simp [getPositionValue]

/-- **C3**: for every checkmate position, `evaluatePosition` returns
exactly -1000 when the side to move (the mated side) is White and exactly
+1000 when the side to move is Black, at every difficulty tier. -/
theorem evaluate_checkmate_sign (diff : Difficulty) (rng : Nat → ℚ) (g : Game)
    (ri : Nat) (hcm : g.checkmate = true) :
    (evaluatePosition diff rng g ri).1 =
      if g.turn = .white then -1000 else 1000 := by
  simp [evaluatePosition, hcm]

/-- Witness for `evaluate_checkmate_sign` at the two concrete checkmate
positions. -/
theorem evaluate_checkmate_sign_witness :
    (evaluatePosition .hard (fun _ => 0) wMateWhite 0).1 = -1000 ∧
      (evaluatePosition .easy (fun _ => 0) wMateBlack 0).1 = 1000 := by
  constructor
  · rw [evaluate_checkmate_sign .hard (fun _ => 0) wMateWhite 0 (by decide)]
    with_unfolding_all decide
  · rw [evaluate_checkmate_sign .easy (fun _ => 0) wMateBlack 0 (by decide)]
    with_unfolding_all decide

/-- **C10**: for every terminal position (checkmate or draw) and every
difficulty tier, `evaluatePosition` returns the exact terminal score with
no random noise added and no random draw consumed — the terminal returns
precede the noise addition. -/
theorem evaluate_terminal_exact (diff : Difficulty) (rng : Nat → ℚ) (g : Game)
    (ri : Nat) :
    (g.checkmate = true →
      evaluatePosition diff rng g ri = (if g.turn = .white then -1000 else 1000, ri)) ∧
    (g.checkmate = false → g.draw = true →
      evaluatePosition diff rng g ri = (0, ri)) := by
  constructor
  · intro hcm
    simp [evaluatePosition, hcm]
  · intro hcm hdr
    simp [evaluatePosition, hcm, hdr]

/-- Witness for `evaluate_terminal_exact` at a checkmate and at a draw,
with noisy tiers. -/
theorem evaluate_terminal_exact_witness :
    evaluatePosition .easy (fun _ => 1/2) wMateBlack 0 = (1000, 0) ∧
      evaluatePosition .medium (fun _ => 1/2) wDraw 0 = (0, 0) := by
  constructor
  · rw [(evaluate_terminal_exact .easy (fun _ => 1/2) wMateBlack 0).1 (by decide)]
    with_unfolding_all decide
  · rw [(evaluate_terminal_exact .medium (fun _ => 1/2) wDraw 0).2 (by decide) (by decide)]

/-! ## Mirror symmetry: C4 -/

theorem Game.mirror_mk (t b cm sm dr l) :
    Game.mirror (.mk t b cm sm dr l) =
      .mk t.swap (fun r f => (b r.rev f).map Piece.swapColor) cm sm dr
        (Game.mirror.mirrorList l) := by
  rw [Game.mirror]

@[simp] theorem Game.mirror_checkmate (g : Game) : g.mirror.checkmate = g.checkmate := by
  cases g
  rw [Game.mirror_mk]
  rfl

@[simp] theorem Game.mirror_draw (g : Game) : g.mirror.draw = g.draw := by
  cases g
  rw [Game.mirror_mk]
  rfl

@[simp] theorem Game.mirror_turn (g : Game) : g.mirror.turn = g.turn.swap := by
  cases g
  rw [Game.mirror_mk]
  rfl

/-- One square of the mirrored position contributes the negated
contribution of the mirrored square of the original. -/
theorem squareScore_mirror (g : Game) (r f : Fin 8) :
    squareScore g.mirror r f = -squareScore g r.rev f := by
  cases g with
  | mk t b cm sm dr l =>
    rw [Game.mirror_mk]
    simp only [squareScore, Game.board_mk]
    cases hb : b r.rev f with
    | none => simp
    | some pc =>
      cases pc with
      | mk pcol pk =>
        cases pcol <;>
          simp [Piece.swapColor, Color.swap, getPositionValue]

/-- The board sum is exactly negated on the mirrored position. -/
theorem staticScore_mirror (g : Game) : staticScore g.mirror = -staticScore g := by
  calc staticScore g.mirror
      = ∑ r : Fin 8, ∑ f : Fin 8, -squareScore g r.rev f := by
        unfold staticScore
        exact Finset.sum_congr rfl fun r _ =>
          Finset.sum_congr rfl fun f _ => squareScore_mirror g r f
    _ = -∑ r : Fin 8, ∑ f : Fin 8, squareScore g r.rev f := by
        simp [Finset.sum_neg_distrib]
    _ = -staticScore g := by
        unfold staticScore
        congr 1
        exact Fintype.sum_equiv Fin.revPerm _ _ fun _ => rfl

/-- **C4**: for every position and its color-mirrored counterpart (ranks
mirrored, sides swapped), the hard-tier (noise-free) evaluation is exactly
negated. -/
theorem evaluate_mirror_neg (rng : Nat → ℚ) (g : Game) (ri : Nat) :
    (evaluatePosition .hard rng g.mirror ri).1 =
      -(evaluatePosition .hard rng g ri).1 := by
  cases hc : g.checkmate
  · cases hd : g.draw
    · simp [evaluatePosition, hc, hd, staticScore_mirror]
    · simp [evaluatePosition, hc, hd]
  · cases ht : g.turn <;> simp [evaluatePosition, hc, ht, Color.swap]

/-! ## Move ordering: C8 -/

/-- The comparator of `orderMoves` is transitive. -/
theorem orderLE_trans (a b c : Move × Game)
    (hab : (!b.1.captured || a.1.captured) = true)
    (hbc : (!c.1.captured || b.1.captured) = true) :
    (!c.1.captured || a.1.captured) = true := by
  cases ha : a.1.captured <;> cases hb : b.1.captured <;> cases hc : c.1.captured <;>
    simp_all

/-- The comparator of `orderMoves` is total. -/
theorem orderLE_total (a b : Move × Game) :
    ((!b.1.captured || a.1.captured) || (!a.1.captured || b.1.captured)) = true := by
  cases ha : a.1.captured <;> cases hb : b.1.captured <;> simp_all

/-- Any list that is pairwise sorted for a boolean key (key-true elements
never after key-false elements) is its own key-first partition. -/
theorem pairwise_key_eq_partition {α : Type} (p : α → Bool) :
    ∀ (S : List α), S.Pairwise (fun a b => (!p b || p a) = true) →
      S = S.filter p ++ S.filter (fun c => !p c)
  | [], _ => rfl
  | a :: rest, h => by
    have htail := (List.pairwise_cons.mp h).2
    have hhead := (List.pairwise_cons.mp h).1
    cases ha : p a with
    | true =>
      have ih := pairwise_key_eq_partition p rest htail
      simp only [List.filter_cons, ha, Bool.not_true, if_true]
      simp only [Bool.false_eq_true, if_false, List.cons_append]
      exact congrArg (a :: ·) ih
    | false =>
      have hall : ∀ b ∈ rest, p b = false := by
        intro b hb
        have := hhead b hb
        rw [ha] at this
        simpa using this
      have h1 : List.filter p (a :: rest) = [] := by
        rw [List.filter_eq_nil_iff]
        intro x hx
        rcases List.mem_cons.mp hx with rfl | hx'
        · simp [ha]
        · simp [hall x hx']
      have h2 : List.filter (fun c => !p c) (a :: rest) = a :: rest := by
        rw [List.filter_eq_self]
        intro x hx
        rcases List.mem_cons.mp hx with rfl | hx'
        · simp [ha]
        · simp [hall x hx']
      rw [h1, h2, List.nil_append]

/-- **C8**: the move orderer returns a permutation of its input in which
every capture precedes every non-capture, and the relative order among
captures and among non-captures is preserved (stable): the output is
exactly the capture-first partition of the input. -/
theorem orderMoves_stable_partition (ms : List (Move × Game)) :
    orderMoves ms =
        ms.filter (fun c => c.1.captured) ++ ms.filter (fun c => !c.1.captured) ∧
      (orderMoves ms).Perm ms := by
  have hperm : (orderMoves ms).Perm ms := List.mergeSort_perm ms _
  refine ⟨?_, hperm⟩
  have hsorted :
      (orderMoves ms).Pairwise (fun a b => (!b.1.captured || a.1.captured) = true) :=
    List.sorted_mergeSort orderLE_trans orderLE_total ms
  have hsplit : orderMoves ms =
      (orderMoves ms).filter (fun c => c.1.captured) ++
        (orderMoves ms).filter (fun c => !c.1.captured) :=
    pairwise_key_eq_partition (fun c => c.1.captured) (orderMoves ms) hsorted
  have hcap : ms.filter (fun c => c.1.captured)
      = (orderMoves ms).filter (fun c => c.1.captured) := by
    have h1 : (ms.filter (fun c => c.1.captured)).Pairwise
        (fun a b => (!b.1.captured || a.1.captured) = true) := by
      apply List.pairwise_of_forall_mem_list
      intro a ha b hb
      have ha' := List.of_mem_filter ha
      simp only [ha', Bool.or_true]
    have hsub : List.Sublist (ms.filter (fun c => c.1.captured)) (orderMoves ms) :=
      List.sublist_mergeSort orderLE_trans orderLE_total h1 (List.filter_sublist ms)
    have hsub2 : List.Sublist (ms.filter (fun c => c.1.captured))
        ((orderMoves ms).filter (fun c => c.1.captured)) := by
      have h3 := hsub.filter (fun c => c.1.captured)
      rw [List.filter_filter] at h3
      simpa using h3
    exact hsub2.eq_of_length ((hperm.filter _).length_eq.symm)
  have hnon : ms.filter (fun c => !c.1.captured)
      = (orderMoves ms).filter (fun c => !c.1.captured) := by
    have h1 : (ms.filter (fun c => !c.1.captured)).Pairwise
        (fun a b => (!b.1.captured || a.1.captured) = true) := by
      apply List.pairwise_of_forall_mem_list
      intro a ha b hb
      have hb' := List.of_mem_filter hb
      simp only [Bool.not_eq_true'] at hb'
      simp only [hb', Bool.not_false, Bool.true_or]
    have hsub : List.Sublist (ms.filter (fun c => !c.1.captured)) (orderMoves ms) :=
      List.sublist_mergeSort orderLE_trans orderLE_total h1 (List.filter_sublist ms)
    have hsub2 : List.Sublist (ms.filter (fun c => !c.1.captured))
        ((orderMoves ms).filter (fun c => !c.1.captured)) := by
      have h3 := hsub.filter (fun c => !c.1.captured)
      rw [List.filter_filter] at h3
      simpa using h3
    exact hsub2.eq_of_length ((hperm.filter _).length_eq.symm)
  rw [hsplit, ← hcap, ← hnon]

/-! ## Unfolding equations for the search functions -/

theorem evaluatePosition_hard (rng : Nat → ℚ) (g : Game) (ri : Nat) :
    evaluatePosition .hard rng g ri = (evalHard g, ri) := by
  cases hc : g.checkmate <;> cases hd : g.draw <;>
    simp [evaluatePosition, evalHard, hc, hd]

theorem minimax_eval (env : Env) (g : Game) (d : Nat) (m : Bool) (α β : XScore)
    (ri ti : Nat) (h : (env.timeout ti || d == 0 || g.isGameOver) = true) :
    minimax env g d m α β ri ti =
      (.fin (evaluatePosition env.settings.difficulty env.rng g ri).1,
        (evaluatePosition env.settings.difficulty env.rng g ri).2, ti + 1) := by
  rw [minimax]
  rw [dif_pos h]

theorem minimax_step (env : Env) (g : Game) (d : Nat) (m : Bool) (α β : XScore)
    (ri ti : Nat) (h : ¬ (env.timeout ti || d == 0 || g.isGameOver) = true) :
    minimax env g d m α β ri ti =
      if m then maxLoop env (orderMoves g.legal) (d - 1) .negInf α β ri (ti + 1)
      else minLoop env (orderMoves g.legal) (d - 1) .posInf α β ri (ti + 1) := by
  rw [minimax]
  rw [dif_neg h]

theorem maxLoop_nil (env : Env) (cd : Nat) (me α β : XScore) (ri ti : Nat) :
    maxLoop env [] cd me α β ri ti = (me, ri, ti) := by
  rw [maxLoop]

theorem maxLoop_cons (env : Env) (c : Move × Game) (rest : List (Move × Game))
    (cd : Nat) (me α β : XScore) (ri ti : Nat) :
    maxLoop env (c :: rest) cd me α β ri ti =
      (if β ≤ max α (minimax env c.2 cd false α β ri ti).1 then
        (max me (minimax env c.2 cd false α β ri ti).1,
          (minimax env c.2 cd false α β ri ti).2.1,
          (minimax env c.2 cd false α β ri ti).2.2)
      else
        maxLoop env rest cd (max me (minimax env c.2 cd false α β ri ti).1)
          (max α (minimax env c.2 cd false α β ri ti).1) β
          (minimax env c.2 cd false α β ri ti).2.1
          (minimax env c.2 cd false α β ri ti).2.2) := by
  rw [maxLoop]

theorem minLoop_nil (env : Env) (cd : Nat) (me α β : XScore) (ri ti : Nat) :
    minLoop env [] cd me α β ri ti = (me, ri, ti) := by
  rw [minLoop]

theorem minLoop_cons (env : Env) (c : Move × Game) (rest : List (Move × Game))
    (cd : Nat) (me α β : XScore) (ri ti : Nat) :
    minLoop env (c :: rest) cd me α β ri ti =
      (if min β (minimax env c.2 cd true α β ri ti).1 ≤ α then
        (min me (minimax env c.2 cd true α β ri ti).1,
          (minimax env c.2 cd true α β ri ti).2.1,
          (minimax env c.2 cd true α β ri ti).2.2)
      else
        minLoop env rest cd (min me (minimax env c.2 cd true α β ri ti).1)
          α (min β (minimax env c.2 cd true α β ri ti).1)
          (minimax env c.2 cd true α β ri ti).2.1
          (minimax env c.2 cd true α β ri ti).2.2) := by
  rw [minLoop]

/-! ## Hard tier is independent of the random stream: C9 -/

theorem minimax_eval_hard (D T : Nat) (f : Nat → ℚ) (tmo : Nat → Bool) (g : Game)
    (d : Nat) (m : Bool) (α β : XScore) (ri ti : Nat)
    (h : (tmo ti || d == 0 || g.isGameOver) = true) :
    minimax ⟨⟨D, .hard, T⟩, f, tmo⟩ g d m α β ri ti = (.fin (evalHard g), ri, ti + 1) := by
  have h2 := minimax_eval ⟨⟨D, .hard, T⟩, f, tmo⟩ g d m α β ri ti h
  rw [h2]
  dsimp only
  rw [evaluatePosition_hard]

/-- rng-independence of the maximizing loop, given rng-independence of
`minimax` at the child depth. -/
theorem maxLoop_hard_rng (D T : Nat) (tmo : Nat → Bool) (cd : Nat)
    (IH : ∀ (g : Game) (m : Bool) (α β : XScore) (f1 f2 : Nat → ℚ) (ri1 ri2 ti : Nat),
      (minimax ⟨⟨D, .hard, T⟩, f1, tmo⟩ g cd m α β ri1 ti).1
          = (minimax ⟨⟨D, .hard, T⟩, f2, tmo⟩ g cd m α β ri2 ti).1 ∧
        (minimax ⟨⟨D, .hard, T⟩, f1, tmo⟩ g cd m α β ri1 ti).2.1 = ri1 ∧
        (minimax ⟨⟨D, .hard, T⟩, f2, tmo⟩ g cd m α β ri2 ti).2.1 = ri2 ∧
        (minimax ⟨⟨D, .hard, T⟩, f1, tmo⟩ g cd m α β ri1 ti).2.2
          = (minimax ⟨⟨D, .hard, T⟩, f2, tmo⟩ g cd m α β ri2 ti).2.2) :
    ∀ (cs : List (Move × Game)) (me α β : XScore) (f1 f2 : Nat → ℚ) (ri1 ri2 ti : Nat),
      (maxLoop ⟨⟨D, .hard, T⟩, f1, tmo⟩ cs cd me α β ri1 ti).1
          = (maxLoop ⟨⟨D, .hard, T⟩, f2, tmo⟩ cs cd me α β ri2 ti).1 ∧
        (maxLoop ⟨⟨D, .hard, T⟩, f1, tmo⟩ cs cd me α β ri1 ti).2.1 = ri1 ∧
        (maxLoop ⟨⟨D, .hard, T⟩, f2, tmo⟩ cs cd me α β ri2 ti).2.1 = ri2 ∧
        (maxLoop ⟨⟨D, .hard, T⟩, f1, tmo⟩ cs cd me α β ri1 ti).2.2
          = (maxLoop ⟨⟨D, .hard, T⟩, f2, tmo⟩ cs cd me α β ri2 ti).2.2 := by
  intro cs
  induction cs with
  | nil =>
    intro me α β f1 f2 ri1 ri2 ti
    rw [maxLoop_nil, maxLoop_nil]
    exact ⟨rfl, rfl, rfl, rfl⟩
  | cons c rest ihrest =>
    intro me α β f1 f2 ri1 ri2 ti
    obtain ⟨hv, hr1, hr2, ht⟩ := IH c.2 false α β f1 f2 ri1 ri2 ti
    rw [maxLoop_cons, maxLoop_cons, hv, hr1, hr2, ht]
    by_cases hβ : β ≤ max α (minimax ⟨⟨D, .hard, T⟩, f2, tmo⟩ c.2 cd false α β ri2 ti).1
    · rw [if_pos hβ, if_pos hβ]
      exact ⟨rfl, rfl, rfl, rfl⟩
    · rw [if_neg hβ, if_neg hβ]
      exact ihrest _ _ _ f1 f2 ri1 ri2 _

/-- rng-independence of the minimizing loop, given rng-independence of
`minimax` at the child depth. -/
theorem minLoop_hard_rng (D T : Nat) (tmo : Nat → Bool) (cd : Nat)
    (IH : ∀ (g : Game) (m : Bool) (α β : XScore) (f1 f2 : Nat → ℚ) (ri1 ri2 ti : Nat),
      (minimax ⟨⟨D, .hard, T⟩, f1, tmo⟩ g cd m α β ri1 ti).1
          = (minimax ⟨⟨D, .hard, T⟩, f2, tmo⟩ g cd m α β ri2 ti).1 ∧
        (minimax ⟨⟨D, .hard, T⟩, f1, tmo⟩ g cd m α β ri1 ti).2.1 = ri1 ∧
        (minimax ⟨⟨D, .hard, T⟩, f2, tmo⟩ g cd m α β ri2 ti).2.1 = ri2 ∧
        (minimax ⟨⟨D, .hard, T⟩, f1, tmo⟩ g cd m α β ri1 ti).2.2
          = (minimax ⟨⟨D, .hard, T⟩, f2, tmo⟩ g cd m α β ri2 ti).2.2) :
    ∀ (cs : List (Move × Game)) (me α β : XScore) (f1 f2 : Nat → ℚ) (ri1 ri2 ti : Nat),
      (minLoop ⟨⟨D, .hard, T⟩, f1, tmo⟩ cs cd me α β ri1 ti).1
          = (minLoop ⟨⟨D, .hard, T⟩, f2, tmo⟩ cs cd me α β ri2 ti).1 ∧
        (minLoop ⟨⟨D, .hard, T⟩, f1, tmo⟩ cs cd me α β ri1 ti).2.1 = ri1 ∧
        (minLoop ⟨⟨D, .hard, T⟩, f2, tmo⟩ cs cd me α β ri2 ti).2.1 = ri2 ∧
        (minLoop ⟨⟨D, .hard, T⟩, f1, tmo⟩ cs cd me α β ri1 ti).2.2
          = (minLoop ⟨⟨D, .hard, T⟩, f2, tmo⟩ cs cd me α β ri2 ti).2.2 := by
  intro cs
  induction cs with
  | nil =>
    intro me α β f1 f2 ri1 ri2 ti
    rw [minLoop_nil, minLoop_nil]
    exact ⟨rfl, rfl, rfl, rfl⟩
  | cons c rest ihrest =>
    intro me α β f1 f2 ri1 ri2 ti
    obtain ⟨hv, hr1, hr2, ht⟩ := IH c.2 true α β f1 f2 ri1 ri2 ti
    rw [minLoop_cons, minLoop_cons, hv, hr1, hr2, ht]
    by_cases hβ : min β (minimax ⟨⟨D, .hard, T⟩, f2, tmo⟩ c.2 cd true α β ri2 ti).1 ≤ α
    · rw [if_pos hβ, if_pos hβ]
      exact ⟨rfl, rfl, rfl, rfl⟩
    · rw [if_neg hβ, if_neg hβ]
      exact ihrest _ _ _ f1 f2 ri1 ri2 _

/-- rng-independence of hard-tier `minimax`: the score and timeout counter
do not depend on the random stream or its counter, and the random counter
is returned unchanged. -/
theorem minimax_hard_rng (D T : Nat) (tmo : Nat → Bool) :
    ∀ (d : Nat) (g : Game) (m : Bool) (α β : XScore) (f1 f2 : Nat → ℚ) (ri1 ri2 ti : Nat),
      (minimax ⟨⟨D, .hard, T⟩, f1, tmo⟩ g d m α β ri1 ti).1
          = (minimax ⟨⟨D, .hard, T⟩, f2, tmo⟩ g d m α β ri2 ti).1 ∧
        (minimax ⟨⟨D, .hard, T⟩, f1, tmo⟩ g d m α β ri1 ti).2.1 = ri1 ∧
        (minimax ⟨⟨D, .hard, T⟩, f2, tmo⟩ g d m α β ri2 ti).2.1 = ri2 ∧
        (minimax ⟨⟨D, .hard, T⟩, f1, tmo⟩ g d m α β ri1 ti).2.2
          = (minimax ⟨⟨D, .hard, T⟩, f2, tmo⟩ g d m α β ri2 ti).2.2 := by
  intro d
  induction d with
  | zero =>
    intro g m α β f1 f2 ri1 ri2 ti
    have hc : (tmo ti || (0 == 0 : Bool) || g.isGameOver) = true := by simp
    rw [minimax_eval_hard D T f1 tmo g 0 m α β ri1 ti hc,
      minimax_eval_hard D T f2 tmo g 0 m α β ri2 ti hc]
    exact ⟨rfl, rfl, rfl, rfl⟩
  | succ d ih =>
    intro g m α β f1 f2 ri1 ri2 ti
    by_cases hcond : (tmo ti || (d + 1 == 0 : Bool) || g.isGameOver) = true
    · rw [minimax_eval_hard D T f1 tmo g (d + 1) m α β ri1 ti hcond,
        minimax_eval_hard D T f2 tmo g (d + 1) m α β ri2 ti hcond]
      exact ⟨rfl, rfl, rfl, rfl⟩
    · rw [minimax_step ⟨⟨D, .hard, T⟩, f1, tmo⟩ g (d + 1) m α β ri1 ti hcond,
        minimax_step ⟨⟨D, .hard, T⟩, f2, tmo⟩ g (d + 1) m α β ri2 ti hcond]
      cases m
      · simpa using minLoop_hard_rng D T tmo d ih (orderMoves g.legal)
          .posInf α β f1 f2 ri1 ri2 (ti + 1)
      · simpa using maxLoop_hard_rng D T tmo d ih (orderMoves g.legal)
          .negInf α β f1 f2 ri1 ri2 (ti + 1)

/-- rng-independence of the hard-tier root-move loop. -/
theorem rootLoop_hard_rng (D T : Nat) (tmo : Nat → Bool) (d : Nat) (w : Bool) :
    ∀ (cs : List (Move × Game)) (best : Option Move) (bs : XScore)
      (f1 f2 : Nat → ℚ) (ri1 ri2 ti : Nat),
      (rootLoop ⟨⟨D, .hard, T⟩, f1, tmo⟩ d w cs best bs ri1 ti).1
          = (rootLoop ⟨⟨D, .hard, T⟩, f2, tmo⟩ d w cs best bs ri2 ti).1 ∧
        (rootLoop ⟨⟨D, .hard, T⟩, f1, tmo⟩ d w cs best bs ri1 ti).2.1
          = (rootLoop ⟨⟨D, .hard, T⟩, f2, tmo⟩ d w cs best bs ri2 ti).2.1 ∧
        (rootLoop ⟨⟨D, .hard, T⟩, f1, tmo⟩ d w cs best bs ri1 ti).2.2.1 = ri1 ∧
        (rootLoop ⟨⟨D, .hard, T⟩, f2, tmo⟩ d w cs best bs ri2 ti).2.2.1 = ri2 ∧
        (rootLoop ⟨⟨D, .hard, T⟩, f1, tmo⟩ d w cs best bs ri1 ti).2.2.2
          = (rootLoop ⟨⟨D, .hard, T⟩, f2, tmo⟩ d w cs best bs ri2 ti).2.2.2 := by
  intro cs
  induction cs with
  | nil =>
    intro best bs f1 f2 ri1 ri2 ti
    simp only [rootLoop]
    exact ⟨trivial, trivial, trivial, trivial, trivial⟩
  | cons c rest ihrest =>
    intro best bs f1 f2 ri1 ri2 ti
    simp only [rootLoop]
    by_cases htm : tmo ti
    · simp only [htm, if_true]
      exact ⟨trivial, trivial, trivial, trivial, trivial⟩
    · simp only [htm, Bool.false_eq_true, if_false]
      obtain ⟨hv, hr1, hr2, ht⟩ :=
        minimax_hard_rng D T tmo (d - 1) c.2 c.2.turn.isWhite .negInf .posInf
          f1 f2 ri1 ri2 (ti + 1)
      rw [hv, hr1, hr2, ht]
      cases w
      · by_cases hlt :
          (minimax ⟨⟨D, .hard, T⟩, f2, tmo⟩ c.2 (d - 1) c.2.turn.isWhite
            .negInf .posInf ri2 (ti + 1)).1 < bs
        · simp only [Bool.false_eq_true, if_false, hlt, if_true]
          exact ihrest _ _ f1 f2 ri1 ri2 _
        · simp only [Bool.false_eq_true, if_false, hlt]
          exact ihrest _ _ f1 f2 ri1 ri2 _
      · by_cases hlt : bs <
          (minimax ⟨⟨D, .hard, T⟩, f2, tmo⟩ c.2 (d - 1) c.2.turn.isWhite
            .negInf .posInf ri2 (ti + 1)).1
        · simp only [if_true, hlt]
          exact ihrest _ _ f1 f2 ri1 ri2 _
        · simp only [hlt]
          exact ihrest _ _ f1 f2 ri1 ri2 _

/-- rng-independence of the iterative-deepening loop. -/
theorem hardDepths_hard_rng (D T : Nat) (tmo : Nat → Bool)
    (orderedMoves : List (Move × Game)) (w : Bool) :
    ∀ (ds : List Nat) (sel : Option Move) (f1 f2 : Nat → ℚ) (ri1 ri2 ti : Nat),
      (hardDepths ⟨⟨D, .hard, T⟩, f1, tmo⟩ orderedMoves w ds sel ri1 ti).1
          = (hardDepths ⟨⟨D, .hard, T⟩, f2, tmo⟩ orderedMoves w ds sel ri2 ti).1 ∧
        (hardDepths ⟨⟨D, .hard, T⟩, f1, tmo⟩ orderedMoves w ds sel ri1 ti).2.1 = ri1 ∧
        (hardDepths ⟨⟨D, .hard, T⟩, f2, tmo⟩ orderedMoves w ds sel ri2 ti).2.1 = ri2 ∧
        (hardDepths ⟨⟨D, .hard, T⟩, f1, tmo⟩ orderedMoves w ds sel ri1 ti).2.2
          = (hardDepths ⟨⟨D, .hard, T⟩, f2, tmo⟩ orderedMoves w ds sel ri2 ti).2.2 := by
  intro ds
  induction ds with
  | nil =>
    intro sel f1 f2 ri1 ri2 ti
    simp only [hardDepths]
    exact ⟨trivial, trivial, trivial, trivial⟩
  | cons d rest ihrest =>
    intro sel f1 f2 ri1 ri2 ti
    simp only [hardDepths]
    obtain ⟨hb, hbs, hr1, hr2, ht⟩ :=
      rootLoop_hard_rng D T tmo d w orderedMoves none
        (if w then .negInf else .posInf) f1 f2 ri1 ri2 ti
    rw [hb, hr1, hr2, ht]
    by_cases htm : tmo (rootLoop ⟨⟨D, .hard, T⟩, f2, tmo⟩ d w orderedMoves none
        (if w then .negInf else .posInf) ri2 ti).2.2.2
    · simp only [htm, if_true]
      exact ⟨trivial, trivial, trivial, trivial⟩
    · simp only [htm, Bool.false_eq_true, if_false]
      exact ihrest _ f1 f2 ri1 ri2 _

/-- **C9**: at the hard tier, with the clock oracle fixed, `getBestMove`
does not depend on the random stream or its counter and performs no random
draw (the random counter is returned unchanged): two invocations on the
same position with the same settings return the same move. -/
theorem getBestMove_hard_deterministic (D T : Nat) (f1 f2 : Nat → ℚ)
    (tmo : Nat → Bool) (g : Game) (ri1 ri2 ti : Nat) :
    (getBestMove ⟨⟨D, .hard, T⟩, f1, tmo⟩ g ri1 ti).1
        = (getBestMove ⟨⟨D, .hard, T⟩, f2, tmo⟩ g ri2 ti).1 ∧
      (getBestMove ⟨⟨D, .hard, T⟩, f1, tmo⟩ g ri1 ti).2.1 = ri1 ∧
      (getBestMove ⟨⟨D, .hard, T⟩, f2, tmo⟩ g ri2 ti).2.1 = ri2 ∧
      (getBestMove ⟨⟨D, .hard, T⟩, f1, tmo⟩ g ri1 ti).2.2
        = (getBestMove ⟨⟨D, .hard, T⟩, f2, tmo⟩ g ri2 ti).2.2 := by
  cases hm : g.legal with
  | nil =>
    simp only [getBestMove, hm]
    exact ⟨trivial, trivial, trivial, trivial⟩
  | cons m0 rest =>
    simp only [getBestMove, hm]
    obtain ⟨hb, hr1, hr2, ht⟩ :=
      hardDepths_hard_rng D T tmo (orderMoves (m0 :: rest)) g.turn.isWhite
        (List.range' 1 D) none f1 f2 ri1 ri2 ti
    rw [hb, hr1, hr2, ht]
    exact ⟨rfl, rfl, rfl, rfl⟩

/-! ## Window-clamp toolkit for the alpha-beta equivalence -/

theorem clamp_of_le {α β x : XScore} (h : x ≤ α) : clamp α β x = α :=
  max_eq_left (le_trans (min_le_left x β) h)

theorem clamp_of_ge {α β x : XScore} (hβx : β ≤ x) (hαβ : α ≤ β) : clamp α β x = β := by
  unfold clamp
  rw [min_eq_right hβx]
  exact max_eq_right hαβ

theorem clamp_of_between {α β x : XScore} (hα : α ≤ x) (hx : x ≤ β) : clamp α β x = x := by
  unfold clamp
  rw [min_eq_left hx]
  exact max_eq_right hα

theorem le_of_clamp_eq_left {α β x : XScore} (hαβ : α < β) (h : clamp α β x = α) :
    x ≤ α := by
  by_contra hx
  push_neg at hx
  have h1 : α < min x β := lt_min hx hαβ
  rw [clamp, max_eq_right h1.le] at h
  exact absurd (h ▸ h1) (lt_irrefl α)

theorem ge_of_clamp_eq_right {α β x : XScore} (hαβ : α < β) (h : clamp α β x = β) :
    β ≤ x := by
  by_contra hx
  push_neg at hx
  rcases le_total x α with h1 | h1
  · rw [clamp_of_le h1] at h
    exact absurd h hαβ.ne
  · rw [clamp_of_between h1 hx.le] at h
    exact absurd (h ▸ hx) (lt_irrefl β)

theorem eq_of_clamp_between {α β x y : XScore} (h : clamp α β x = y)
    (hα : α < y) (hβ : y < β) : x = y := by
  rcases le_total x α with h1 | h1
  · rw [clamp_of_le h1] at h
    exact absurd (h ▸ hα) (lt_irrefl y)
  · rcases le_total β x with h2 | h2
    · rw [clamp_of_ge h2 (hα.trans hβ).le] at h
      exact absurd (h ▸ hβ) (lt_irrefl y)
    · rwa [clamp_of_between h1 h2] at h

theorem clamp_window_left {α α' β y : XScore} (hαα' : α ≤ α') (hα'β : α' ≤ β)
    (hy : α' ≤ y) : clamp α β y = clamp α' β y := by
  have hmin : α' ≤ min y β := le_min hy hα'β
  unfold clamp
  rw [max_eq_right (le_trans hαα' hmin), max_eq_right hmin]

theorem clamp_window_right {α β β' y : XScore} (hβ'β : β' ≤ β)
    (hy : y ≤ β') : clamp α β y = clamp α β' y := by
  unfold clamp
  rw [min_eq_left (le_trans hy hβ'β), min_eq_left hy]

theorem clamp_drop_right {α β y z : XScore} (hy : y ≤ α) :
    clamp α β (max z y) = clamp α β z := by
  rcases le_total y z with h | h
  · rw [max_eq_left h]
  · rw [max_eq_right h, clamp_of_le (h.trans hy), clamp_of_le hy]

theorem clamp_drop_left {α β y z : XScore} (hy : β ≤ y) (hαβ : α ≤ β) :
    clamp α β (min z y) = clamp α β z := by
  rcases le_total z y with h | h
  · rw [min_eq_left h]
  · rw [min_eq_right h, clamp_of_ge hy hαβ, clamp_of_ge (hy.trans h) hαβ]

theorem clamp_full (x : XScore) : clamp .negInf .posInf x = x := by
  unfold clamp
  rw [XScore.min_posInf_right, XScore.max_negInf]

/-! ## Unfolding and accumulator lemmas for the pure search -/

theorem minimaxPure_eval (g : Game) (d : Nat) (m : Bool) (α β : XScore)
    (h : d = 0 ∨ g.isGameOver = true) :
    minimaxPure g d m α β = .fin (evalHard g) := by
  rw [minimaxPure]
  rw [dif_pos h]

theorem minimaxPure_step (g : Game) (d : Nat) (m : Bool) (α β : XScore)
    (h : ¬ (d = 0 ∨ g.isGameOver = true)) :
    minimaxPure g d m α β =
      if m then maxLoopPure (orderMoves g.legal) (d - 1) .negInf α β
      else minLoopPure (orderMoves g.legal) (d - 1) .posInf α β := by
  rw [minimaxPure]
  rw [dif_neg h]

theorem maxLoopPure_nil (cd : Nat) (me α β : XScore) :
    maxLoopPure [] cd me α β = me := by
  rw [maxLoopPure]

theorem maxLoopPure_cons (c : Move × Game) (rest : List (Move × Game)) (cd : Nat)
    (me α β : XScore) :
    maxLoopPure (c :: rest) cd me α β =
      (if β ≤ max α (minimaxPure c.2 cd false α β) then
        max me (minimaxPure c.2 cd false α β)
      else
        maxLoopPure rest cd (max me (minimaxPure c.2 cd false α β))
          (max α (minimaxPure c.2 cd false α β)) β) := by
  rw [maxLoopPure]

theorem minLoopPure_nil (cd : Nat) (me α β : XScore) :
    minLoopPure [] cd me α β = me := by
  rw [minLoopPure]

theorem minLoopPure_cons (c : Move × Game) (rest : List (Move × Game)) (cd : Nat)
    (me α β : XScore) :
    minLoopPure (c :: rest) cd me α β =
      (if min β (minimaxPure c.2 cd true α β) ≤ α then
        min me (minimaxPure c.2 cd true α β)
      else
        minLoopPure rest cd (min me (minimaxPure c.2 cd true α β))
          α (min β (minimaxPure c.2 cd true α β))) := by
  rw [minLoopPure]

theorem specMinimax_eval (g : Game) (d : Nat) (m : Bool)
    (h : d = 0 ∨ g.isGameOver = true) :
    specMinimax g d m = .fin (evalHard g) := by
  rw [specMinimax]
  rw [dif_pos h]

theorem specMinimax_step (g : Game) (d : Nat) (m : Bool)
    (h : ¬ (d = 0 ∨ g.isGameOver = true)) :
    specMinimax g d m =
      if m then specFoldMax (orderMoves g.legal) (d - 1) .negInf
      else specFoldMin (orderMoves g.legal) (d - 1) .posInf := by
  rw [specMinimax]
  rw [dif_neg h]

theorem specFoldMax_nil (cd : Nat) (acc : XScore) : specFoldMax [] cd acc = acc := by
  rw [specFoldMax]

theorem specFoldMax_cons (c : Move × Game) (rest : List (Move × Game)) (cd : Nat)
    (acc : XScore) :
    specFoldMax (c :: rest) cd acc =
      specFoldMax rest cd (max acc (specMinimax c.2 cd false)) := by
  rw [specFoldMax]

theorem specFoldMin_nil (cd : Nat) (acc : XScore) : specFoldMin [] cd acc = acc := by
  rw [specFoldMin]

theorem specFoldMin_cons (c : Move × Game) (rest : List (Move × Game)) (cd : Nat)
    (acc : XScore) :
    specFoldMin (c :: rest) cd acc =
      specFoldMin rest cd (min acc (specMinimax c.2 cd true)) := by
  rw [specFoldMin]

/-- The maximizing loop never returns less than its accumulator. -/
theorem maxLoopPure_ge_acc (cd : Nat) (β : XScore) :
    ∀ (cs : List (Move × Game)) (me α : XScore), me ≤ maxLoopPure cs cd me α β := by
  intro cs
  induction cs with
  | nil => intro me α; rw [maxLoopPure_nil]
  | cons c rest ih =>
    intro me α
    rw [maxLoopPure_cons]
    by_cases hβ : β ≤ max α (minimaxPure c.2 cd false α β)
    · rw [if_pos hβ]; exact le_max_left ..
    · rw [if_neg hβ]
      exact le_trans (le_max_left ..) (ih _ _)

/-- The minimizing loop never returns more than its accumulator. -/
theorem minLoopPure_le_acc (cd : Nat) (α : XScore) :
    ∀ (cs : List (Move × Game)) (me β : XScore), minLoopPure cs cd me α β ≤ me := by
  intro cs
  induction cs with
  | nil => intro me β; rw [minLoopPure_nil]
  | cons c rest ih =>
    intro me β
    rw [minLoopPure_cons]
    by_cases hα : min β (minimaxPure c.2 cd true α β) ≤ α
    · rw [if_pos hα]; exact min_le_left ..
    · rw [if_neg hα]
      exact le_trans (ih _ _) (min_le_left ..)

/-- The unpruned max-fold never returns less than its accumulator. -/
theorem specFoldMax_ge_acc (cd : Nat) :
    ∀ (cs : List (Move × Game)) (acc : XScore), acc ≤ specFoldMax cs cd acc := by
  intro cs
  induction cs with
  | nil => intro acc; rw [specFoldMax_nil]
  | cons c rest ih =>
    intro acc
    rw [specFoldMax_cons]
    exact le_trans (le_max_left ..) (ih _)

/-- The unpruned min-fold never returns more than its accumulator. -/
theorem specFoldMin_le_acc (cd : Nat) :
    ∀ (cs : List (Move × Game)) (acc : XScore), specFoldMin cs cd acc ≤ acc := by
  intro cs
  induction cs with
  | nil => intro acc; rw [specFoldMin_nil]
  | cons c rest ih =>
    intro acc
    rw [specFoldMin_cons]
    exact le_trans (ih _) (min_le_left ..)

/-- Accumulator hoisting for the unpruned max-fold. -/
theorem specFoldMax_acc (cd : Nat) :
    ∀ (cs : List (Move × Game)) (acc : XScore),
      specFoldMax cs cd acc = max acc (specFoldMax cs cd .negInf) := by
  intro cs
  induction cs with
  | nil =>
    intro acc
    rw [specFoldMax_nil, specFoldMax_nil, XScore.max_negInf_right]
  | cons c rest ih =>
    intro acc
    rw [specFoldMax_cons, specFoldMax_cons, ih, ih (max XScore.negInf _),
      XScore.max_negInf, max_assoc]

/-- Accumulator hoisting for the unpruned min-fold. -/
theorem specFoldMin_acc (cd : Nat) :
    ∀ (cs : List (Move × Game)) (acc : XScore),
      specFoldMin cs cd acc = min acc (specFoldMin cs cd .posInf) := by
  intro cs
  induction cs with
  | nil =>
    intro acc
    rw [specFoldMin_nil, specFoldMin_nil, XScore.min_posInf_right]
  | cons c rest ih =>
    intro acc
    rw [specFoldMin_cons, specFoldMin_cons, ih, ih (min XScore.posInf _),
      XScore.min_posInf, min_assoc]

/-! ## The alpha-beta window lemma -/

/-- Central window lemma, maximizing loop: under a window `(α, β)` the
pruned loop and the unpruned fold agree up to clamping, provided every
child agrees up to clamping at every narrower window. -/
theorem maxLoopPure_clamp (cd : Nat) (β : XScore) :
    ∀ (cs : List (Move × Game)) (me α : XScore),
      me ≤ α → α < β →
      (∀ c ∈ cs, ∀ a : XScore, a < β →
        clamp a β (minimaxPure c.2 cd false a β) = clamp a β (specMinimax c.2 cd false)) →
      clamp α β (maxLoopPure cs cd me α β) = clamp α β (specFoldMax cs cd me) := by
  intro cs
  induction cs with
  | nil =>
    intro me α _ _ _
    rw [maxLoopPure_nil, specFoldMax_nil]
  | cons c rest ih =>
    intro me α hme hαβ hch
    have hce := hch c (List.mem_cons_self c rest) α hαβ
    have hch' : ∀ c' ∈ rest, ∀ a : XScore, a < β →
        clamp a β (minimaxPure c'.2 cd false a β) = clamp a β (specMinimax c'.2 cd false) :=
      fun c' hc' => hch c' (List.mem_cons_of_mem c hc')
    set e := minimaxPure c.2 cd false α β with he_def
    set v := specMinimax c.2 cd false with hv_def
    rw [maxLoopPure_cons, specFoldMax_cons, ← he_def, ← hv_def]
    by_cases hcut : β ≤ max α e
    · rw [if_pos hcut]
      have hβe : β ≤ e := by
        rcases max_choice α e with h | h
        · rw [h] at hcut
          exact absurd hcut hαβ.not_le
        · rwa [h] at hcut
      have hv2 : β ≤ v := by
        apply ge_of_clamp_eq_right hαβ
        rw [← hce]
        exact clamp_of_ge hβe hαβ.le
      rw [clamp_of_ge (le_trans hβe (le_max_right ..)) hαβ.le]
      rw [clamp_of_ge (le_trans (le_trans hv2 (le_max_right me v)) (specFoldMax_ge_acc ..)) hαβ.le]
    · rw [if_neg hcut]
      push_neg at hcut
      have hme' : max me e ≤ max α e := max_le_max hme (le_refl e)
      have ihres := ih (max me e) (max α e) hme' hcut hch'
      rcases le_or_lt e α with he | he
      · have hα' : max α e = α := max_eq_left he
        rw [hα'] at ihres ⊢
        have hvle : v ≤ α := by
          apply le_of_clamp_eq_left hαβ
          rw [← hce]
          exact clamp_of_le he
        rw [ihres, specFoldMax_acc cd rest (max me e), specFoldMax_acc cd rest (max me v)]
        rw [max_assoc me e _, max_comm e _, ← max_assoc me _ e]
        rw [max_assoc me v _, max_comm v _, ← max_assoc me _ v]
        rw [clamp_drop_right he, clamp_drop_right hvle]
      · have heβ : e < β := lt_of_le_of_lt (le_max_right α e) hcut
        have hveq : v = e := by
          apply eq_of_clamp_between ?_ he heβ
          rw [← hce]
          exact clamp_of_between he.le heβ.le
        have hα' : max α e = e := max_eq_right he.le
        rw [hα'] at ihres ⊢
        rw [hveq]
        rw [clamp_window_left he.le heβ.le
          (le_trans (le_max_right me e) (maxLoopPure_ge_acc ..))]
        rw [clamp_window_left he.le heβ.le
          (le_trans (le_max_right me e) (specFoldMax_ge_acc ..))]
        exact ihres

/-- Central window lemma, minimizing loop (dual). -/
theorem minLoopPure_clamp (cd : Nat) (α : XScore) :
    ∀ (cs : List (Move × Game)) (me β : XScore),
      β ≤ me → α < β →
      (∀ c ∈ cs, ∀ b : XScore, α < b →
        clamp α b (minimaxPure c.2 cd true α b) = clamp α b (specMinimax c.2 cd true)) →
      clamp α β (minLoopPure cs cd me α β) = clamp α β (specFoldMin cs cd me) := by
  intro cs
  induction cs with
  | nil =>
    intro me β _ _ _
    rw [minLoopPure_nil, specFoldMin_nil]
  | cons c rest ih =>
    intro me β hme hαβ hch
    have hce := hch c (List.mem_cons_self c rest) β hαβ
    have hch' : ∀ c' ∈ rest, ∀ b : XScore, α < b →
        clamp α b (minimaxPure c'.2 cd true α b) = clamp α b (specMinimax c'.2 cd true) :=
      fun c' hc' => hch c' (List.mem_cons_of_mem c hc')
    set e := minimaxPure c.2 cd true α β with he_def
    set v := specMinimax c.2 cd true with hv_def
    rw [minLoopPure_cons, specFoldMin_cons, ← he_def, ← hv_def]
    by_cases hcut : min β e ≤ α
    · rw [if_pos hcut]
      have heα : e ≤ α := by
        rcases min_choice β e with h | h
        · rw [h] at hcut
          exact absurd hcut hαβ.not_le
        · rwa [h] at hcut
      have hv2 : v ≤ α := by
        apply le_of_clamp_eq_left hαβ
        rw [← hce]
        exact clamp_of_le heα
      rw [clamp_of_le (le_trans (min_le_right ..) heα)]
      rw [clamp_of_le (le_trans (specFoldMin_le_acc ..) (le_trans (min_le_right me v) hv2))]
    · rw [if_neg hcut]
      push_neg at hcut
      have hme' : min β e ≤ min me e := min_le_min hme (le_refl e)
      have ihres := ih (min me e) (min β e) hme' hcut hch'
      rcases le_or_lt β e with he | he
      · have hβ' : min β e = β := min_eq_left he
        rw [hβ'] at ihres ⊢
        have hvge : β ≤ v := by
          apply ge_of_clamp_eq_right hαβ
          rw [← hce]
          exact clamp_of_ge he hαβ.le
        rw [ihres, specFoldMin_acc cd rest (min me e), specFoldMin_acc cd rest (min me v)]
        rw [min_assoc me e _, min_comm e _, ← min_assoc me _ e]
        rw [min_assoc me v _, min_comm v _, ← min_assoc me _ v]
        rw [clamp_drop_left he hαβ.le, clamp_drop_left hvge hαβ.le]
      · have hαe : α < e := lt_of_lt_of_le hcut (min_le_right β e)
        have hveq : v = e := by
          apply eq_of_clamp_between ?_ hαe he
          rw [← hce]
          exact clamp_of_between hαe.le he.le
        have hβ' : min β e = e := min_eq_right he.le
        rw [hβ'] at ihres ⊢
        rw [hveq]
        rw [clamp_window_right he.le
          (le_trans (minLoopPure_le_acc ..) (min_le_right me e))]
        rw [clamp_window_right he.le
          (le_trans (specFoldMin_le_acc ..) (min_le_right me e))]
        exact ihres

/-- Alpha-beta pruning does not change the value up to the window clamp:
`minimaxPure` agrees with the unpruned `specMinimax` on every window. -/
theorem minimaxPure_clamp :
    ∀ (d : Nat) (g : Game) (m : Bool) (α β : XScore), α < β →
      clamp α β (minimaxPure g d m α β) = clamp α β (specMinimax g d m) := by
  intro d
  induction d with
  | zero =>
    intro g m α β _
    rw [minimaxPure_eval g 0 m α β (Or.inl rfl), specMinimax_eval g 0 m (Or.inl rfl)]
  | succ d ih =>
    intro g m α β hαβ
    by_cases hterm : d + 1 = 0 ∨ g.isGameOver = true
    · rw [minimaxPure_eval g (d + 1) m α β hterm, specMinimax_eval g (d + 1) m hterm]
    · rw [minimaxPure_step g (d + 1) m α β hterm, specMinimax_step g (d + 1) m hterm]
      simp only [Nat.add_sub_cancel]
      cases m
      · simp only [Bool.false_eq_true, if_false]
        exact minLoopPure_clamp d α (orderMoves g.legal) .posInf β (XScore.le_posInf β) hαβ
          (fun c _ b hb => ih c.2 true α b hb)
      · simp only [if_true]
        exact maxLoopPure_clamp d β (orderMoves g.legal) .negInf α (XScore.negInf_le α) hαβ
          (fun c _ a ha => ih c.2 false a β ha)

/-- At the full window the pruned and unpruned searches agree exactly. -/
theorem minimaxPure_eq_specMinimax (d : Nat) (g : Game) (m : Bool) :
    minimaxPure g d m .negInf .posInf = specMinimax g d m := by
  have h := minimaxPure_clamp d g m .negInf .posInf XScore.negInf_lt_posInf
  rwa [clamp_full, clamp_full] at h

/-! ## Bridge: hard tier with a never-exceeded deadline is the pure search -/

theorem maxLoop_noTimeout (D T : Nat) (f : Nat → ℚ) (cd : Nat)
    (IH : ∀ (g : Game) (m : Bool) (α β : XScore) (ri ti : Nat),
      (minimax ⟨⟨D, .hard, T⟩, f, fun _ => false⟩ g cd m α β ri ti).1
          = minimaxPure g cd m α β ∧
        (minimax ⟨⟨D, .hard, T⟩, f, fun _ => false⟩ g cd m α β ri ti).2.1 = ri) :
    ∀ (cs : List (Move × Game)) (me α β : XScore) (ri ti : Nat),
      (maxLoop ⟨⟨D, .hard, T⟩, f, fun _ => false⟩ cs cd me α β ri ti).1
          = maxLoopPure cs cd me α β ∧
        (maxLoop ⟨⟨D, .hard, T⟩, f, fun _ => false⟩ cs cd me α β ri ti).2.1 = ri := by
  intro cs
  induction cs with
  | nil =>
    intro me α β ri ti
    rw [maxLoop_nil, maxLoopPure_nil]
    exact ⟨rfl, rfl⟩
  | cons c rest ihrest =>
    intro me α β ri ti
    obtain ⟨hv, hr⟩ := IH c.2 false α β ri ti
    rw [maxLoop_cons, maxLoopPure_cons, hv, hr]
    by_cases hβ : β ≤ max α (minimaxPure c.2 cd false α β)
    · rw [if_pos hβ, if_pos hβ]
      exact ⟨rfl, rfl⟩
    · rw [if_neg hβ, if_neg hβ]
      exact ihrest _ _ _ ri _
  
theorem minLoop_noTimeout (D T : Nat) (f : Nat → ℚ) (cd : Nat)
    (IH : ∀ (g : Game) (m : Bool) (α β : XScore) (ri ti : Nat),
      (minimax ⟨⟨D, .hard, T⟩, f, fun _ => false⟩ g cd m α β ri ti).1
          = minimaxPure g cd m α β ∧
        (minimax ⟨⟨D, .hard, T⟩, f, fun _ => false⟩ g cd m α β ri ti).2.1 = ri) :
    ∀ (cs : List (Move × Game)) (me α β : XScore) (ri ti : Nat),
      (minLoop ⟨⟨D, .hard, T⟩, f, fun _ => false⟩ cs cd me α β ri ti).1
          = minLoopPure cs cd me α β ∧
        (minLoop ⟨⟨D, .hard, T⟩, f, fun _ => false⟩ cs cd me α β ri ti).2.1 = ri := by
  intro cs
  induction cs with
  | nil =>
    intro me α β ri ti
    rw [minLoop_nil, minLoopPure_nil]
    exact ⟨rfl, rfl⟩
  | cons c rest ihrest =>
    intro me α β ri ti
    obtain ⟨hv, hr⟩ := IH c.2 true α β ri ti
    rw [minLoop_cons, minLoopPure_cons, hv, hr]
    by_cases hβ : min β (minimaxPure c.2 cd true α β) ≤ α
    · rw [if_pos hβ, if_pos hβ]
      exact ⟨rfl, rfl⟩
    · rw [if_neg hβ, if_neg hβ]
      exact ihrest _ _ _ ri _

/-- With the hard tier and a deadline that is never exceeded, the stateful
`minimax` computes exactly `minimaxPure` and consumes no random draw. -/
theorem minimax_noTimeout (D T : Nat) (f : Nat → ℚ) :
    ∀ (d : Nat) (g : Game) (m : Bool) (α β : XScore) (ri ti : Nat),
      (minimax ⟨⟨D, .hard, T⟩, f, fun _ => false⟩ g d m α β ri ti).1
          = minimaxPure g d m α β ∧
        (minimax ⟨⟨D, .hard, T⟩, f, fun _ => false⟩ g d m α β ri ti).2.1 = ri := by
  intro d
  induction d with
  | zero =>
    intro g m α β ri ti
    rw [minimax_eval_hard D T f (fun _ => false) g 0 m α β ri ti (by simp),
      minimaxPure_eval g 0 m α β (Or.inl rfl)]
    exact ⟨rfl, rfl⟩
  | succ d ih =>
    intro g m α β ri ti
    by_cases hgo : g.isGameOver = true
    · rw [minimax_eval_hard D T f (fun _ => false) g (d + 1) m α β ri ti (by simp [hgo]),
        minimaxPure_eval g (d + 1) m α β (Or.inr hgo)]
      exact ⟨rfl, rfl⟩
    · have hcond : ¬ ((fun (_ : Nat) => false) ti || (d + 1 == 0 : Bool)
          || g.isGameOver) = true := by
        simp [hgo]
      rw [minimax_step ⟨⟨D, .hard, T⟩, f, fun _ => false⟩ g (d + 1) m α β ri ti hcond,
        minimaxPure_step g (d + 1) m α β (by simp [hgo])]
      cases m
      · simp only [Bool.false_eq_true, if_false]
        exact minLoop_noTimeout D T f (d + 1 - 1) ih (orderMoves g.legal)
          .posInf α β ri (ti + 1)
      · simp only [if_true]
        exact maxLoop_noTimeout D T f (d + 1 - 1) ih (orderMoves g.legal)
          .negInf α β ri (ti + 1)

/-- With no time pressure the hard-tier root loop computes exactly the
unpruned specification selection (same best move and best score), and
consumes no random draw. -/
theorem rootLoop_noTimeout (D T : Nat) (f : Nat → ℚ) (d : Nat) (w : Bool) :
    ∀ (cs : List (Move × Game)) (best : Option Move) (bs : XScore) (ri ti : Nat),
      (rootLoop ⟨⟨D, .hard, T⟩, f, fun _ => false⟩ d w cs best bs ri ti).1
          = (specBestLoop w d cs best bs).1 ∧
        (rootLoop ⟨⟨D, .hard, T⟩, f, fun _ => false⟩ d w cs best bs ri ti).2.1
          = (specBestLoop w d cs best bs).2 ∧
        (rootLoop ⟨⟨D, .hard, T⟩, f, fun _ => false⟩ d w cs best bs ri ti).2.2.1 = ri := by
  intro cs
  induction cs with
  | nil =>
    intro best bs ri ti
    simp only [rootLoop, specBestLoop]
    exact ⟨trivial, trivial, trivial⟩
  | cons c rest ihrest =>
    intro best bs ri ti
    simp only [rootLoop, specBestLoop, Bool.false_eq_true, if_false]
    obtain ⟨hv, hr⟩ := minimax_noTimeout D T f (d - 1) c.2 c.2.turn.isWhite
      .negInf .posInf ri (ti + 1)
    rw [hv, hr, minimaxPure_eq_specMinimax]
    cases w
    · by_cases hlt : specMinimax c.2 (d - 1) c.2.turn.isWhite < bs
      · rw [if_pos hlt, if_pos hlt]
        exact ihrest _ _ ri _
      · rw [if_neg hlt, if_neg hlt]
        exact ihrest _ _ ri _
    · by_cases hlt : bs < specMinimax c.2 (d - 1) c.2.turn.isWhite
      · rw [if_pos hlt, if_pos hlt]
        exact ihrest _ _ ri _
      · rw [if_neg hlt, if_neg hlt]
        exact ihrest _ _ ri _

/-- With no time pressure the iterative-deepening loop runs every depth
and folds the per-depth specification selections over `selectedMove`. -/
theorem hardDepths_noTimeout (D T : Nat) (f : Nat → ℚ)
    (om : List (Move × Game)) (w : Bool) :
    ∀ (ds : List Nat) (sel : Option Move) (ri ti : Nat),
      (hardDepths ⟨⟨D, .hard, T⟩, f, fun _ => false⟩ om w ds sel ri ti).1
          = ds.foldl (fun acc d =>
              match (specBestLoop w d om none (if w then .negInf else .posInf)).1 with
              | some b => some b
              | none => acc) sel ∧
        (hardDepths ⟨⟨D, .hard, T⟩, f, fun _ => false⟩ om w ds sel ri ti).2.1 = ri := by
  intro ds
  induction ds with
  | nil =>
    intro sel ri ti
    simp only [hardDepths, List.foldl_nil]
    exact ⟨trivial, trivial⟩
  | cons d rest ihrest =>
    intro sel ri ti
    simp only [hardDepths, Bool.false_eq_true, if_false, List.foldl_cons]
    obtain ⟨hb, _hbs, hr⟩ := rootLoop_noTimeout D T f d w om none
      (if w then .negInf else .posInf) ri ti
    rw [hb, hr]
    exact ihrest _ ri _

/-! ## Well-formedness, finiteness and selection lemmas -/

theorem Game.wfList_mem :
    ∀ (l : List (Move × Game)), Game.wf.wfList l = true → ∀ c ∈ l, c.2.wf = true
  | [], _, c, hc => absurd hc (List.not_mem_nil c)
  | x :: xs, h, c, hc => by
    rw [Game.wf.wfList] at h
    simp only [Bool.and_eq_true] at h
    rcases List.mem_cons.mp hc with rfl | hc'
    · exact h.1
    · exact Game.wfList_mem xs h.2 c hc'

theorem Game.wf_children {g : Game} (h : g.wf = true) :
    ∀ c ∈ g.legal, c.2.wf = true := by
  cases g with
  | mk t b cm sm dr l =>
    rw [Game.wf] at h
    simp only [Bool.and_eq_true] at h
    exact Game.wfList_mem l h.2

theorem Game.wf_legal_ne {g : Game} (h : g.wf = true) (hgo : g.isGameOver = false) :
    g.legal ≠ [] := by
  cases g with
  | mk t b cm sm dr l =>
    rw [Game.wf] at h
    rw [Game.isGameOver] at hgo
    simp only [Game.checkmate_mk, Game.stalemate_mk, Game.draw_mk,
      Bool.or_eq_false_iff] at hgo
    obtain ⟨⟨hcm, hsm⟩, hdr⟩ := hgo
    simp only [Bool.and_eq_true] at h
    have h1 := h.1
    rw [hcm, hsm, hdr] at h1
    simp only [Game.legal_mk]
    simpa using h1

theorem orderMoves_mem {c : Move × Game} {ms : List (Move × Game)} :
    c ∈ orderMoves ms ↔ c ∈ ms :=
  List.mem_mergeSort

theorem orderMoves_ne_nil {ms : List (Move × Game)} (h : ms ≠ []) :
    orderMoves ms ≠ [] := by
  intro h0
  have hp := List.mergeSort_perm ms (fun a b => !b.1.captured || a.1.captured)
  rw [show List.mergeSort ms (fun a b => !b.1.captured || a.1.captured)
      = orderMoves ms from rfl, h0] at hp
  exact h hp.symm.eq_nil

theorem specFoldMax_fin (cd : Nat) :
    ∀ (cs : List (Move × Game)) (acc : XScore),
      (∀ c ∈ cs, ∃ q, specMinimax c.2 cd false = .fin q) →
      ((∃ q, acc = .fin q) ∨ (acc = .negInf ∧ cs ≠ [])) →
      ∃ q, specFoldMax cs cd acc = .fin q := by
  intro cs
  induction cs with
  | nil =>
    intro acc _ hacc
    rcases hacc with ⟨q, hq⟩ | ⟨_, hne⟩
    · exact ⟨q, by rw [specFoldMax_nil, hq]⟩
    · exact absurd rfl hne
  | cons c rest ih =>
    intro acc hfin hacc
    obtain ⟨qc, hqc⟩ := hfin c (List.mem_cons_self c rest)
    rw [specFoldMax_cons, hqc]
    have hfin' : ∀ c' ∈ rest, ∃ q, specMinimax c'.2 cd false = .fin q :=
      fun c' hc' => hfin c' (List.mem_cons_of_mem c hc')
    rcases hacc with ⟨q, hq⟩ | ⟨hq, _⟩
    · exact ih _ hfin' (Or.inl ⟨max q qc, by rw [hq, XScore.max_fin_fin]⟩)
    · exact ih _ hfin' (Or.inl ⟨qc, by rw [hq, XScore.max_negInf]⟩)

theorem specFoldMin_fin (cd : Nat) :
    ∀ (cs : List (Move × Game)) (acc : XScore),
      (∀ c ∈ cs, ∃ q, specMinimax c.2 cd true = .fin q) →
      ((∃ q, acc = .fin q) ∨ (acc = .posInf ∧ cs ≠ [])) →
      ∃ q, specFoldMin cs cd acc = .fin q := by
  intro cs
  induction cs with
  | nil =>
    intro acc _ hacc
    rcases hacc with ⟨q, hq⟩ | ⟨_, hne⟩
    · exact ⟨q, by rw [specFoldMin_nil, hq]⟩
    · exact absurd rfl hne
  | cons c rest ih =>
    intro acc hfin hacc
    obtain ⟨qc, hqc⟩ := hfin c (List.mem_cons_self c rest)
    rw [specFoldMin_cons, hqc]
    have hfin' : ∀ c' ∈ rest, ∃ q, specMinimax c'.2 cd true = .fin q :=
      fun c' hc' => hfin c' (List.mem_cons_of_mem c hc')
    rcases hacc with ⟨q, hq⟩ | ⟨hq, _⟩
    · exact ih _ hfin' (Or.inl ⟨min q qc, by rw [hq, XScore.min_fin_fin]⟩)
    · exact ih _ hfin' (Or.inl ⟨qc, by rw [hq, XScore.min_posInf]⟩)

/-- On a well-formed game tree the unpruned minimax value is always
finite. -/
theorem specMinimax_fin :
    ∀ (d : Nat) (g : Game) (m : Bool), g.wf = true →
      ∃ q, specMinimax g d m = .fin q := by
  intro d
  induction d with
  | zero =>
    intro g m _
    exact ⟨evalHard g, specMinimax_eval g 0 m (Or.inl rfl)⟩
  | succ d ih =>
    intro g m hwf
    by_cases hgo : g.isGameOver = true
    · exact ⟨evalHard g, specMinimax_eval g (d + 1) m (Or.inr hgo)⟩
    · rw [specMinimax_step g (d + 1) m (by simp [hgo])]
      simp only [Nat.add_sub_cancel]
      have hne : orderMoves g.legal ≠ [] :=
        orderMoves_ne_nil (Game.wf_legal_ne hwf (by simpa using hgo))
      have hfinT : ∀ c ∈ orderMoves g.legal, ∃ q, specMinimax c.2 d true = .fin q :=
        fun c hc => ih c.2 true (Game.wf_children hwf c (orderMoves_mem.mp hc))
      have hfinF : ∀ c ∈ orderMoves g.legal, ∃ q, specMinimax c.2 d false = .fin q :=
        fun c hc => ih c.2 false (Game.wf_children hwf c (orderMoves_mem.mp hc))
      cases m
      · simp only [Bool.false_eq_true, if_false]
        exact specFoldMin_fin d _ _ hfinT (Or.inr ⟨rfl, hne⟩)
      · simp only [if_true]
        exact specFoldMax_fin d _ _ hfinF (Or.inr ⟨rfl, hne⟩)

/-- Once the specification selection holds a move it keeps holding one. -/
theorem specBestLoop_pres (w : Bool) (d : Nat) :
    ∀ (cs : List (Move × Game)) (m0 : Move) (bs : XScore),
      ∃ m, (specBestLoop w d cs (some m0) bs).1 = some m := by
  intro cs
  induction cs with
  | nil =>
    intro m0 bs
    exact ⟨m0, rfl⟩
  | cons c rest ih =>
    intro m0 bs
    simp only [specBestLoop]
    cases w
    · by_cases hlt : specMinimax c.2 (d - 1) c.2.turn.isWhite < bs
      · simp only [Bool.false_eq_true, if_false, hlt, if_true]
        exact ih c.1 _
      · simp only [Bool.false_eq_true, if_false, hlt]
        exact ih m0 bs
    · by_cases hlt : bs < specMinimax c.2 (d - 1) c.2.turn.isWhite
      · simp only [if_true, hlt]
        exact ih c.1 _
      · simp only [if_true, hlt, if_false]
        exact ih m0 bs

/-- On a nonempty move list with finite values and the extreme initial
score, the specification selection returns a move. -/
theorem specBestLoop_some (w : Bool) (d : Nat) (c : Move × Game)
    (cs : List (Move × Game))
    (hfin : ∀ c' ∈ c :: cs, ∃ q, specMinimax c'.2 (d - 1) c'.2.turn.isWhite = .fin q) :
    ∃ m, (specBestLoop w d (c :: cs) none (if w then .negInf else .posInf)).1
      = some m := by
  obtain ⟨q, hq⟩ := hfin c (List.mem_cons_self c cs)
  simp only [specBestLoop, hq]
  cases w
  · simp only [Bool.false_eq_true, if_false, XScore.fin_lt_posInf, if_true]
    exact specBestLoop_pres false d cs c.1 _
  · simp only [if_true, XScore.negInf_lt_fin]
    exact specBestLoop_pres true d cs c.1 _

/-- **C5**: at the hard tier, for a fixed depth and no time pressure (the
deadline is never exceeded), the move chosen by the alpha-beta-pruned
iterative-deepening search equals the move chosen by a single unpruned
full-minimax pass at the final depth, with the same capture-first ordering
and the same first-strictly-better tie-break. -/
theorem alphabeta_eq_fullMinimax (D T : Nat) (f : Nat → ℚ) (g : Game) (ri ti : Nat)
    (hWF : g.wf = true) (hne : g.legal ≠ []) (hD : 1 ≤ D) :
    (getBestMove ⟨⟨D, .hard, T⟩, f, fun _ => false⟩ g ri ti).1
      = fullMinimaxChoice g D := by
  cases hm : g.legal with
  | nil => exact absurd hm hne
  | cons m0 rest =>
    simp only [getBestMove, fullMinimaxChoice, hm]
    obtain ⟨hsel, _⟩ := hardDepths_noTimeout D T f (orderMoves (m0 :: rest))
      g.turn.isWhite (List.range' 1 D) none ri ti
    rw [hsel]
    have hrange : List.range' 1 D = List.range' 1 (D - 1) ++ [D] := by
      have h1 : D = (D - 1) + 1 := by omega
      nth_rewrite 1 [h1]
      rw [List.range'_1_concat]
      have h2 : 1 + (D - 1) = D := by omega
      rw [h2]
    rw [hrange, List.foldl_append, List.foldl_cons, List.foldl_nil]
    have hfin : ∀ c' ∈ orderMoves (m0 :: rest),
        ∃ q, specMinimax c'.2 (D - 1) c'.2.turn.isWhite = .fin q := by
      intro c' hc'
      apply specMinimax_fin
      exact Game.wf_children hWF c' (hm ▸ orderMoves_mem.mp hc')
    cases ho : orderMoves (m0 :: rest) with
    | nil => exact absurd ho (orderMoves_ne_nil (by simp))
    | cons c cs =>
      obtain ⟨bD, hbD⟩ := specBestLoop_some g.turn.isWhite D c cs (ho ▸ hfin)
      rw [hbD]

/-- Witness for `alphabeta_eq_fullMinimax` on a concrete position at
depth 2. -/
theorem alphabeta_eq_fullMinimax_witness :
    wRoot1.wf = true ∧ wRoot1.legal ≠ [] ∧ 1 ≤ 2 ∧
      (getBestMove ⟨⟨2, .hard, 5⟩, fun _ => 1/2, fun _ => false⟩ wRoot1 0 0).1
        = fullMinimaxChoice wRoot1 2 := by
  refine ⟨by decide, List.cons_ne_nil _ _, by decide, ?_⟩
  exact alphabeta_eq_fullMinimax 2 5 (fun _ => 1/2) wRoot1 0 0 (by decide)
    (List.cons_ne_nil _ _) (by decide)

/-! ## Finiteness of the stateful search on well-formed trees -/

theorem maxLoop_fin (env : Env) (cd : Nat)
    (IH : ∀ (g : Game) (m : Bool) (α β : XScore) (ri ti : Nat), g.wf = true →
      ∃ q, (minimax env g cd m α β ri ti).1 = .fin q) :
    ∀ (cs : List (Move × Game)) (me α β : XScore) (ri ti : Nat),
      (∀ c ∈ cs, c.2.wf = true) →
      ((∃ q, me = .fin q) ∨ (me = .negInf ∧ cs ≠ [])) →
      ∃ q, (maxLoop env cs cd me α β ri ti).1 = .fin q := by
  intro cs
  induction cs with
  | nil =>
    intro me α β ri ti _ hacc
    rcases hacc with ⟨q, hq⟩ | ⟨_, hne⟩
    · exact ⟨q, by rw [maxLoop_nil, hq]⟩
    · exact absurd rfl hne
  | cons c rest ih =>
    intro me α β ri ti hwf hacc
    obtain ⟨qc, hqc⟩ := IH c.2 false α β ri ti (hwf c (List.mem_cons_self c rest))
    have hwf' : ∀ c' ∈ rest, c'.2.wf = true :=
      fun c' hc' => hwf c' (List.mem_cons_of_mem c hc')
    rw [maxLoop_cons, hqc]
    have hfinme : ∃ q, max me (XScore.fin qc) = XScore.fin q := by
      rcases hacc with ⟨q, hq⟩ | ⟨hq, _⟩
      · exact ⟨max q qc, by rw [hq, XScore.max_fin_fin]⟩
      · exact ⟨qc, by rw [hq, XScore.max_negInf]⟩
    by_cases hβ : β ≤ max α (XScore.fin qc)
    · rw [if_pos hβ]
      exact hfinme
    · rw [if_neg hβ]
      exact ih _ _ _ _ _ hwf' (Or.inl hfinme)

theorem minLoop_fin (env : Env) (cd : Nat)
    (IH : ∀ (g : Game) (m : Bool) (α β : XScore) (ri ti : Nat), g.wf = true →
      ∃ q, (minimax env g cd m α β ri ti).1 = .fin q) :
    ∀ (cs : List (Move × Game)) (me α β : XScore) (ri ti : Nat),
      (∀ c ∈ cs, c.2.wf = true) →
      ((∃ q, me = .fin q) ∨ (me = .posInf ∧ cs ≠ [])) →
      ∃ q, (minLoop env cs cd me α β ri ti).1 = .fin q := by
  intro cs
  induction cs with
  | nil =>
    intro me α β ri ti _ hacc
    rcases hacc with ⟨q, hq⟩ | ⟨_, hne⟩
    · exact ⟨q, by rw [minLoop_nil, hq]⟩
    · exact absurd rfl hne
  | cons c rest ih =>
    intro me α β ri ti hwf hacc
    obtain ⟨qc, hqc⟩ := IH c.2 true α β ri ti (hwf c (List.mem_cons_self c rest))
    have hwf' : ∀ c' ∈ rest, c'.2.wf = true :=
      fun c' hc' => hwf c' (List.mem_cons_of_mem c hc')
    rw [minLoop_cons, hqc]
    have hfinme : ∃ q, min me (XScore.fin qc) = XScore.fin q := by
      rcases hacc with ⟨q, hq⟩ | ⟨hq, _⟩
      · exact ⟨min q qc, by rw [hq, XScore.min_fin_fin]⟩
      · exact ⟨qc, by rw [hq, XScore.min_posInf]⟩
    by_cases hα : min β (XScore.fin qc) ≤ α
    · rw [if_pos hα]
      exact hfinme
    · rw [if_neg hα]
      exact ih _ _ _ _ _ hwf' (Or.inl hfinme)

/-- On a well-formed game tree the stateful `minimax` always returns a
finite score, for every environment and timeout pattern. -/
theorem minimax_fin (env : Env) :
    ∀ (d : Nat) (g : Game) (m : Bool) (α β : XScore) (ri ti : Nat), g.wf = true →
      ∃ q, (minimax env g d m α β ri ti).1 = .fin q := by
  intro d
  induction d with
  | zero =>
    intro g m α β ri ti _
    rw [minimax_eval env g 0 m α β ri ti (by simp)]
    exact ⟨_, rfl⟩
  | succ d ih =>
    intro g m α β ri ti hwf
    by_cases hcond : (env.timeout ti || (d + 1 == 0 : Bool) || g.isGameOver) = true
    · rw [minimax_eval env g (d + 1) m α β ri ti hcond]
      exact ⟨_, rfl⟩
    · rw [minimax_step env g (d + 1) m α β ri ti hcond]
      have hgo : g.isGameOver = false := by
        simp only [Bool.or_eq_true, not_or, Bool.not_eq_true] at hcond
        exact hcond.2
      have hne : orderMoves g.legal ≠ [] :=
        orderMoves_ne_nil (Game.wf_legal_ne hwf hgo)
      have hwf' : ∀ c ∈ orderMoves g.legal, c.2.wf = true :=
        fun c hc => Game.wf_children hwf c (orderMoves_mem.mp hc)
      cases m
      · simp only [Bool.false_eq_true, if_false]
        exact minLoop_fin env (d + 1 - 1) ih _ _ _ _ _ _ hwf' (Or.inr ⟨rfl, hne⟩)
      · simp only [if_true]
        exact maxLoop_fin env (d + 1 - 1) ih _ _ _ _ _ _ hwf' (Or.inr ⟨rfl, hne⟩)

/-! ## Selection-loop lemmas: preservation, membership, first move -/

theorem mediumLoop_pres (diff : Difficulty) (rng : Nat → ℚ) (w : Bool) :
    ∀ (cs : List (Move × Game)) (m0 : Move) (bs : XScore) (ri : Nat),
      ∃ m, (mediumLoop diff rng w cs (some m0) bs ri).1 = some m := by
  intro cs
  induction cs with
  | nil =>
    intro m0 bs ri
    exact ⟨m0, rfl⟩
  | cons c rest ih =>
    intro m0 bs ri
    simp only [mediumLoop]
    cases w
    · by_cases hlt :
        XScore.fin (evaluatePosition diff rng c.2 ri).1 < bs
      · simp only [Bool.false_eq_true, if_false, hlt, if_true]
        exact ih c.1 _ _
      · simp only [Bool.false_eq_true, if_false, hlt]
        exact ih m0 bs _
    · by_cases hlt :
        bs < XScore.fin (evaluatePosition diff rng c.2 ri).1
      · simp only [if_true, hlt]
        exact ih c.1 _ _
      · simp only [if_true, hlt, if_false]
        exact ih m0 bs _

theorem mediumLoop_mem (diff : Difficulty) (rng : Nat → ℚ) (w : Bool) :
    ∀ (cs : List (Move × Game)) (best : Option Move) (bs : XScore) (ri : Nat) (m : Move),
      (mediumLoop diff rng w cs best bs ri).1 = some m →
      best = some m ∨ ∃ gc, (m, gc) ∈ cs := by
  intro cs
  induction cs with
  | nil =>
    intro best bs ri m h
    exact Or.inl h
  | cons c rest ih =>
    intro best bs ri m h
    simp only [mediumLoop] at h
    have hstep : ∀ b' s' r',
        (mediumLoop diff rng w rest b' s' r').1 = some m →
        (b' = some c.1 ∨ b' = best) →
        best = some m ∨ ∃ gc, (m, gc) ∈ c :: rest := by
      intro b' s' r' hres hb'
      rcases ih b' s' r' m hres with hb | ⟨gc, hgc⟩
      · rcases hb' with rfl | rfl
        · have : c.1 = m := by injection hb
          exact Or.inr ⟨c.2, this ▸ List.mem_cons_self c rest⟩
        · exact Or.inl hb
      · exact Or.inr ⟨gc, List.mem_cons_of_mem c hgc⟩
    cases w
    · by_cases hlt : XScore.fin (evaluatePosition diff rng c.2 ri).1 < bs
      · simp only [Bool.false_eq_true, if_false, hlt, if_true] at h
        exact hstep _ _ _ h (Or.inl rfl)
      · simp only [Bool.false_eq_true, if_false, hlt] at h
        exact hstep _ _ _ h (Or.inr rfl)
    · by_cases hlt : bs < XScore.fin (evaluatePosition diff rng c.2 ri).1
      · simp only [if_true, hlt] at h
        exact hstep _ _ _ h (Or.inl rfl)
      · simp only [if_true, hlt, if_false] at h
        exact hstep _ _ _ h (Or.inr rfl)

theorem mediumLoop_first_some (diff : Difficulty) (rng : Nat → ℚ) (w : Bool)
    (c : Move × Game) (rest : List (Move × Game)) (ri : Nat) :
    ∃ m, (mediumLoop diff rng w (c :: rest) none
      (if w then .negInf else .posInf) ri).1 = some m := by
  simp only [mediumLoop]
  cases w
  · simp only [Bool.false_eq_true, if_false, XScore.fin_lt_posInf, if_true]
    exact mediumLoop_pres diff rng false rest c.1 _ _
  · simp only [if_true, XScore.negInf_lt_fin]
    exact mediumLoop_pres diff rng true rest c.1 _ _

theorem rootLoop_pres (env : Env) (d : Nat) (w : Bool) :
    ∀ (cs : List (Move × Game)) (m0 : Move) (bs : XScore) (ri ti : Nat),
      ∃ m, (rootLoop env d w cs (some m0) bs ri ti).1 = some m := by
  intro cs
  induction cs with
  | nil =>
    intro m0 bs ri ti
    exact ⟨m0, rfl⟩
  | cons c rest ih =>
    intro m0 bs ri ti
    simp only [rootLoop]
    by_cases htm : env.timeout ti
    · simp only [htm, if_true]
      exact ⟨m0, rfl⟩
    · simp only [htm, Bool.false_eq_true, if_false]
      cases w
      · by_cases hlt : (minimax env c.2 (d - 1) c.2.turn.isWhite
            .negInf .posInf ri (ti + 1)).1 < bs
        · simp only [Bool.false_eq_true, if_false, hlt, if_true]
          exact ih c.1 _ _ _
        · simp only [Bool.false_eq_true, if_false, hlt]
          exact ih m0 bs _ _
      · by_cases hlt : bs < (minimax env c.2 (d - 1) c.2.turn.isWhite
            .negInf .posInf ri (ti + 1)).1
        · simp only [if_true, hlt]
          exact ih c.1 _ _ _
        · simp only [if_true, hlt, if_false]
          exact ih m0 bs _ _

theorem rootLoop_mem (env : Env) (d : Nat) (w : Bool) :
    ∀ (cs : List (Move × Game)) (best : Option Move) (bs : XScore) (ri ti : Nat) (m : Move),
      (rootLoop env d w cs best bs ri ti).1 = some m →
      best = some m ∨ ∃ gc, (m, gc) ∈ cs := by
  intro cs
  induction cs with
  | nil =>
    intro best bs ri ti m h
    exact Or.inl h
  | cons c rest ih =>
    intro best bs ri ti m h
    simp only [rootLoop] at h
    by_cases htm : env.timeout ti
    · simp only [htm, if_true] at h
      exact Or.inl h
    · simp only [htm, Bool.false_eq_true, if_false] at h
      have hstep : ∀ b' s' r' t',
          (rootLoop env d w rest b' s' r' t').1 = some m →
          (b' = some c.1 ∨ b' = best) →
          best = some m ∨ ∃ gc, (m, gc) ∈ c :: rest := by
        intro b' s' r' t' hres hb'
        rcases ih b' s' r' t' m hres with hb | ⟨gc, hgc⟩
        · rcases hb' with rfl | rfl
          · have hc1 : c.1 = m := by injection hb
            exact Or.inr ⟨c.2, hc1 ▸ List.mem_cons_self c rest⟩
          · exact Or.inl hb
        · exact Or.inr ⟨gc, List.mem_cons_of_mem c hgc⟩
      cases w
      · by_cases hlt : (minimax env c.2 (d - 1) c.2.turn.isWhite
            .negInf .posInf ri (ti + 1)).1 < bs
        · simp only [Bool.false_eq_true, if_false, hlt, if_true] at h
          exact hstep _ _ _ _ h (Or.inl rfl)
        · simp only [Bool.false_eq_true, if_false, hlt] at h
          exact hstep _ _ _ _ h (Or.inr rfl)
      · by_cases hlt : bs < (minimax env c.2 (d - 1) c.2.turn.isWhite
            .negInf .posInf ri (ti + 1)).1
        · simp only [if_true, hlt] at h
          exact hstep _ _ _ _ h (Or.inl rfl)
        · simp only [if_true, hlt, if_false] at h
          exact hstep _ _ _ _ h (Or.inr rfl)

theorem rootLoop_first_some (env : Env) (d : Nat) (w : Bool)
    (c : Move × Game) (rest : List (Move × Game)) (ri ti : Nat)
    (hto : env.timeout ti = false) (hwf : c.2.wf = true) :
    ∃ m, (rootLoop env d w (c :: rest) none
      (if w then .negInf else .posInf) ri ti).1 = some m := by
  obtain ⟨q, hq⟩ := minimax_fin env (d - 1) c.2 c.2.turn.isWhite
    .negInf .posInf ri (ti + 1) hwf
  simp only [rootLoop, hto, Bool.false_eq_true, if_false, hq]
  cases w
  · simp only [Bool.false_eq_true, if_false, XScore.fin_lt_posInf, if_true]
    exact rootLoop_pres env d false rest c.1 _ _ _
  · simp only [if_true, XScore.negInf_lt_fin]
    exact rootLoop_pres env d true rest c.1 _ _ _

theorem hardDepths_pres (env : Env) (om : List (Move × Game)) (w : Bool) :
    ∀ (ds : List Nat) (m0 : Move) (ri ti : Nat),
      ∃ m, (hardDepths env om w ds (some m0) ri ti).1 = some m := by
  intro ds
  induction ds with
  | nil =>
    intro m0 ri ti
    exact ⟨m0, rfl⟩
  | cons d rest ih =>
    intro m0 ri ti
    simp only [hardDepths]
    cases hroot : (rootLoop env d w om none
        (if w then XScore.negInf else XScore.posInf) ri ti).1 with
    | none =>
      by_cases htm : env.timeout (rootLoop env d w om none
          (if w then XScore.negInf else XScore.posInf) ri ti).2.2.2
      · simp only [htm, if_true]
        exact ⟨m0, rfl⟩
      · simp only [htm, Bool.false_eq_true, if_false]
        exact ih m0 _ _
    | some b =>
      by_cases htm : env.timeout (rootLoop env d w om none
          (if w then XScore.negInf else XScore.posInf) ri ti).2.2.2
      · simp only [htm, if_true]
        exact ⟨b, rfl⟩
      · simp only [htm, Bool.false_eq_true, if_false]
        exact ih b _ _

theorem hardDepths_mem (env : Env) (om : List (Move × Game)) (w : Bool) :
    ∀ (ds : List Nat) (sel : Option Move) (ri ti : Nat) (m : Move),
      (hardDepths env om w ds sel ri ti).1 = some m →
      sel = some m ∨ ∃ gc, (m, gc) ∈ om := by
  intro ds
  induction ds with
  | nil =>
    intro sel ri ti m h
    exact Or.inl h
  | cons d rest ih =>
    intro sel ri ti m h
    simp only [hardDepths] at h
    cases hroot : (rootLoop env d w om none
        (if w then XScore.negInf else XScore.posInf) ri ti).1 with
    | none =>
      rw [hroot] at h
      by_cases htm : env.timeout (rootLoop env d w om none
          (if w then XScore.negInf else XScore.posInf) ri ti).2.2.2
      · simp only [htm, if_true] at h
        exact Or.inl h
      · simp only [htm, Bool.false_eq_true, if_false] at h
        exact ih sel _ _ m h
    | some b =>
      rw [hroot] at h
      have hbmem : ∃ gc, (b, gc) ∈ om := by
        rcases rootLoop_mem env d w om none _ ri ti b hroot with hno | hmem
        · exact absurd hno (by simp)
        · exact hmem
      by_cases htm : env.timeout (rootLoop env d w om none
          (if w then XScore.negInf else XScore.posInf) ri ti).2.2.2
      · simp only [htm, if_true] at h
        have hbm : b = m := by injection h
        exact Or.inr (hbm ▸ hbmem)
      · simp only [htm, Bool.false_eq_true, if_false] at h
        rcases ih (some b) _ _ m h with hb | hmem
        · have hbm : b = m := by injection hb
          exact Or.inr (hbm ▸ hbmem)
        · exact Or.inr hmem

/-- On a well-formed position with a legal move, depth at least 1 and a
deadline not yet exceeded at the first check, the hard tier returns a
move. -/
theorem getBestMove_hard_some (D T : Nat) (f : Nat → ℚ) (tmo : Nat → Bool)
    (g : Game) (ri ti : Nat) (hWF : g.wf = true) (hne : g.legal ≠ [])
    (hD : 1 ≤ D) (hto : tmo ti = false) :
    ∃ a, (getBestMove ⟨⟨D, .hard, T⟩, f, tmo⟩ g ri ti).1 = some a := by
  cases hm : g.legal with
  | nil => exact absurd hm hne
  | cons m0 rest =>
    simp only [getBestMove, hm]
    have hrange : List.range' 1 D = 1 :: List.range' 2 (D - 1) := by
      have h1 : D = (D - 1) + 1 := by omega
      nth_rewrite 1 [h1]
      rw [List.range'_succ]
    rw [hrange]
    cases ho : orderMoves (m0 :: rest) with
    | nil => exact absurd ho (orderMoves_ne_nil (List.cons_ne_nil _ _))
    | cons c cs =>
      have hwfc : c.2.wf = true := by
        apply Game.wf_children hWF
        rw [hm]
        exact orderMoves_mem.mp (ho ▸ List.mem_cons_self c cs)
      obtain ⟨b, hb⟩ := rootLoop_first_some ⟨⟨D, .hard, T⟩, f, tmo⟩ 1
        g.turn.isWhite c cs ri ti hto hwfc
      simp only [hardDepths, hb]
      by_cases htm : tmo (rootLoop ⟨⟨D, .hard, T⟩, f, tmo⟩ 1 g.turn.isWhite (c :: cs)
          none (if g.turn.isWhite = true then XScore.negInf else XScore.posInf)
          ri ti).2.2.2
      · simp only [htm, if_true]
        exact ⟨b.toAIMove, rfl⟩
      · simp only [htm, Bool.false_eq_true, if_false]
        obtain ⟨m, hm2⟩ := hardDepths_pres ⟨⟨D, .hard, T⟩, f, tmo⟩ (c :: cs)
          g.turn.isWhite (List.range' 2 (D - 1)) b _ _
        rw [hm2]
        exact ⟨m.toAIMove, rfl⟩

/-- Any move the hard tier returns comes from the legal-move list. -/
theorem getBestMove_hard_mem (D T : Nat) (f : Nat → ℚ) (tmo : Nat → Bool)
    (g : Game) (ri ti : Nat) (a : AIMove)
    (h : (getBestMove ⟨⟨D, .hard, T⟩, f, tmo⟩ g ri ti).1 = some a) :
    ∃ c ∈ g.legal, a = c.1.toAIMove := by
  cases hm : g.legal with
  | nil =>
    rw [getBestMove, hm] at h
    exact absurd h (by simp)
  | cons m0 rest =>
    simp only [getBestMove, hm] at h
    cases hsel : (hardDepths ⟨⟨D, .hard, T⟩, f, tmo⟩ (orderMoves (m0 :: rest))
        g.turn.isWhite (List.range' 1 D) none ri ti).1 with
    | none =>
      rw [hsel] at h
      exact absurd h (by simp)
    | some m =>
      rw [hsel] at h
      have ham : a = m.toAIMove := by
        simp only [Option.map_some'] at h
        exact (Option.some.inj h).symm
      rcases hardDepths_mem ⟨⟨D, .hard, T⟩, f, tmo⟩ (orderMoves (m0 :: rest))
          g.turn.isWhite (List.range' 1 D) none ri ti m hsel with hno | ⟨gc, hgc⟩
      · exact absurd hno (by simp)
      · exact ⟨(m, gc), orderMoves_mem.mp hgc, ham⟩

/-- **C1**: under the operational side conditions (well-formed rules
engine, `Math.random` in `[0,1)`, positive configured depth, deadline not
yet exceeded at the first check), `getBestMove` returns `none` exactly on
positions with no legal move, and otherwise returns a member of the
legal-move set — at every difficulty tier. -/
theorem getBestMove_legal (D T : Nat) (dff : Difficulty) (f : Nat → ℚ)
    (tmo : Nat → Bool) (g : Game) (ri ti : Nat)
    (hWF : g.wf = true) (hr0 : 0 ≤ f ri) (hr1 : f ri < 1)
    (hD : 1 ≤ D) (hto : tmo ti = false) :
    (g.legal = [] → (getBestMove ⟨⟨D, dff, T⟩, f, tmo⟩ g ri ti).1 = none) ∧
    (g.legal ≠ [] → ∃ c ∈ g.legal,
      (getBestMove ⟨⟨D, dff, T⟩, f, tmo⟩ g ri ti).1 = some c.1.toAIMove) := by
  constructor
  · intro hleg
    simp [getBestMove, hleg]
  · intro hne
    cases hm : g.legal with
    | nil => exact absurd hm hne
    | cons m0 rest =>
      cases dff
      · -- easy tier
        simp only [getBestMove, hm]
        set capturing := (m0 :: rest).filter (fun m => m.1.captured) with hcap
        set pool := if !capturing.isEmpty then capturing else (m0 :: rest) with hpool
        set idx := (⌊f ri * (pool.length : ℚ)⌋).toNat with hidx
        have hpool_ne : pool ≠ [] := by
          rw [hpool]
          by_cases hce : capturing.isEmpty
          · simp only [hce, Bool.not_true, Bool.false_eq_true, if_false]
            exact List.cons_ne_nil _ _
          · simp only [Bool.not_eq_true] at hce
            simp only [hce, Bool.not_false, if_true]
            intro h0
            rw [h0] at hce
            simp at hce
        have hpool_sub : ∀ x ∈ pool, x ∈ m0 :: rest := by
          intro x hx
          rw [hpool] at hx
          by_cases hce : capturing.isEmpty
          · simpa [hce] using hx
          · simp only [Bool.not_eq_true] at hce
            rw [hce] at hx
            simp only [Bool.not_false, if_true] at hx
            exact List.mem_of_mem_filter (hcap ▸ hx)
        have hlen : 0 < pool.length := List.length_pos.mpr hpool_ne
        have hidxlt : idx < pool.length := by
          rw [hidx]
          have h0 : (0:ℚ) ≤ f ri * (pool.length : ℚ) :=
            mul_nonneg hr0 (by positivity)
          have hlt : f ri * (pool.length : ℚ) < (pool.length : ℚ) := by
            calc f ri * (pool.length : ℚ) < 1 * (pool.length : ℚ) := by
                  apply mul_lt_mul_of_pos_right hr1
                  exact_mod_cast hlen
              _ = (pool.length : ℚ) := one_mul _
          rw [Int.toNat_lt (Int.floor_nonneg.mpr h0), Int.floor_lt]
          exact_mod_cast hlt
        refine ⟨pool[idx], hpool_sub _ (List.getElem_mem hidxlt), ?_⟩
        rw [List.getElem?_eq_getElem hidxlt]
        rfl
      · -- medium tier
        simp only [getBestMove, hm]
        cases ho : orderMoves (m0 :: rest) with
        | nil => exact absurd ho (orderMoves_ne_nil (List.cons_ne_nil _ _))
        | cons c cs =>
          obtain ⟨bm, hbm⟩ := mediumLoop_first_some .medium f g.turn.isWhite c cs ri
          rcases mediumLoop_mem .medium f g.turn.isWhite (c :: cs) none _ ri bm hbm
            with hno | ⟨gc, hgc⟩
          · exact absurd hno (by simp)
          · refine ⟨(bm, gc), orderMoves_mem.mp (ho.symm ▸ hgc), ?_⟩
            rw [hbm]
      · -- hard tier
        obtain ⟨a, ha⟩ := getBestMove_hard_some D T f tmo g ri ti hWF hne hD hto
        obtain ⟨c, hcmem, hca⟩ := getBestMove_hard_mem D T f tmo g ri ti a ha
        refine ⟨c, by rw [← hm]; exact hcmem, ?_⟩
        rw [ha, hca]

/-- Witness for `getBestMove_legal` on a concrete two-move position at the
hard tier. -/
theorem getBestMove_legal_witness :
    ∃ c ∈ wRoot2.legal,
      (getBestMove ⟨⟨2, .hard, 5⟩, fun _ => 1/2, fun _ => false⟩ wRoot2 0 0).1
        = some c.1.toAIMove :=
  (getBestMove_legal 2 5 .hard (fun _ => 1/2) (fun _ => false) wRoot2 0 0
    (by decide) (by norm_num) (by norm_num) (by decide) rfl).2
    (List.cons_ne_nil _ _)

/-- If the deadline is already exceeded, the root loop abandons the whole
move list, leaving the best move unchanged and advancing the clock. -/
theorem rootLoop_timeout (env : Env) (d : Nat) (w : Bool)
    (cs : List (Move × Game)) (best : Option Move) (bs : XScore) (ri ti : Nat)
    (htm : ∀ j, ti ≤ j → env.timeout j = true) :
    (rootLoop env d w cs best bs ri ti).1 = best ∧
      ti ≤ (rootLoop env d w cs best bs ri ti).2.2.2 := by
  cases cs with
  | nil => exact ⟨rfl, le_refl ti⟩
  | cons c rest =>
    simp only [rootLoop, htm ti (le_refl ti), if_true]
    exact ⟨trivial, Nat.le_succ ti⟩

/-- If the deadline is exceeded from some point on, iterative deepening
starting with no selection returns no move. -/
theorem hardDepths_timeout_none (env : Env) (om : List (Move × Game)) (w : Bool) :
    ∀ (ds : List Nat) (ri ti : Nat),
      (∀ j, ti ≤ j → env.timeout j = true) →
      (hardDepths env om w ds none ri ti).1 = none := by
  intro ds
  cases ds with
  | nil =>
    intro ri ti _
    rfl
  | cons d rest =>
    intro ri ti htm
    obtain ⟨hb, hle⟩ := rootLoop_timeout env d w om none
      (if w then XScore.negInf else XScore.posInf) ri ti htm
    simp only [hardDepths, hb, htm _ hle, if_true]

/-- **C6**: in the hard tier, exceeding the deadline is never an error:
with a monotone timeout oracle, `getBestMove` returns no move exactly when
there is no legal move, the configured depth is zero, or the very first
deadline check has already expired (so no depth-1 root move was
evaluated); and any returned move belongs to the legal-move set (the best
move found so far is kept across abandoned depths). -/
theorem hard_timeout_graceful (D T : Nat) (f : Nat → ℚ) (tmo : Nat → Bool)
    (g : Game) (ri ti : Nat) (hWF : g.wf = true)
    (hmono : ∀ i j, i ≤ j → tmo i = true → tmo j = true) :
    ((getBestMove ⟨⟨D, .hard, T⟩, f, tmo⟩ g ri ti).1 = none ↔
      (g.legal = [] ∨ D = 0 ∨ tmo ti = true)) ∧
    (∀ a, (getBestMove ⟨⟨D, .hard, T⟩, f, tmo⟩ g ri ti).1 = some a →
      ∃ c ∈ g.legal, a = c.1.toAIMove) := by
  constructor
  · constructor
    · intro hnone
      by_contra hcon
      push_neg at hcon
      obtain ⟨hne, hD0, hto⟩ := hcon
      obtain ⟨a, ha⟩ := getBestMove_hard_some D T f tmo g ri ti hWF hne
        (by omega) (by simpa using hto)
      rw [hnone] at ha
      exact Option.noConfusion ha
    · intro hdisj
      rcases hdisj with hleg | hD0 | htm
      · simp [getBestMove, hleg]
      · cases hm : g.legal with
        | nil => simp [getBestMove, hm]
        | cons m0 rest =>
          simp only [getBestMove, hm, hD0]
          rfl
      · cases hm : g.legal with
        | nil => simp [getBestMove, hm]
        | cons m0 rest =>
          simp only [getBestMove, hm]
          rw [hardDepths_timeout_none ⟨⟨D, .hard, T⟩, f, tmo⟩ _ _ _ ri ti
            (fun j hj => hmono ti j hj htm)]
          rfl
  · exact fun a ha => getBestMove_hard_mem D T f tmo g ri ti a ha

/-- Witness for `hard_timeout_graceful` on a concrete position: with a
fresh clock the search returns the only legal move's projection; the
timeout oracle `fun _ => false` is trivially monotone. -/
theorem hard_timeout_graceful_witness :
    ((getBestMove ⟨⟨2, .hard, 5⟩, fun _ => 1/2, fun _ => false⟩ wRoot1 0 0).1 = none ↔
      (wRoot1.legal = [] ∨ 2 = 0 ∨ (fun _ : Nat => false) 0 = true)) ∧
    (∀ a, (getBestMove ⟨⟨2, .hard, 5⟩, fun _ => 1/2, fun _ => false⟩ wRoot1 0 0).1
        = some a →
      ∃ c ∈ wRoot1.legal, a = c.1.toAIMove) :=
  hard_timeout_graceful 2 5 (fun _ => 1/2) (fun _ => false) wRoot1 0 0
    (by decide) (fun i j _ h => by simp at h)

/-! ## Mate-in-one dominance: C7 -/

/-- Checkmate evaluates to the terminal score at every tier (helper). -/
theorem evaluatePosition_cm (diff : Difficulty) (rng : Nat → ℚ) (gc : Game)
    (ri : Nat) (h : gc.checkmate = true) :
    evaluatePosition diff rng gc ri = (if gc.turn = .white then -1000 else 1000, ri) := by
  simp [evaluatePosition, h]

/-- Hard-tier value of a checkmate (helper). -/
theorem evalHard_cm (gc : Game) (h : gc.checkmate = true) :
    evalHard gc = if gc.turn = .white then -1000 else 1000 := by
  simp [evalHard, h]

/-- A non-checkmate successor with bounded board sum evaluates strictly
inside (-1000, 1000) at the medium tier, for any in-contract noise. -/
theorem evaluatePosition_medium_bounds (f : Nat → ℚ)
    (hrng : ∀ j, 0 ≤ f j ∧ f j < 1) (gc : Game) (ri : Nat)
    (hcm : gc.checkmate = false)
    (hbound : gc.draw = false → -999.5 < staticScore gc ∧ staticScore gc < 999.5) :
    -1000 < (evaluatePosition .medium f gc ri).1 ∧
      (evaluatePosition .medium f gc ri).1 < 1000 := by
  by_cases hd : gc.draw = true
  · simp only [evaluatePosition, hcm, Bool.false_eq_true, if_false, hd, if_true]
    norm_num
  · have hb := hbound (by simpa using hd)
    obtain ⟨h0, h1⟩ := hrng ri
    simp only [evaluatePosition, hcm, Bool.false_eq_true, if_false, hd]
    constructor
    · rw [show ((999.5 : ℚ)) = 1999/2 from by norm_num] at hb
      nlinarith [hb.1]
    · rw [show ((999.5 : ℚ)) = 1999/2 from by norm_num] at hb
      nlinarith [hb.2]

/-- A non-checkmate successor with bounded board sum has hard-tier value
strictly inside (-1000, 1000). -/
theorem evalHard_bounds (gc : Game) (hcm : gc.checkmate = false)
    (hbound : gc.draw = false → -999.5 < staticScore gc ∧ staticScore gc < 999.5) :
    -1000 < evalHard gc ∧ evalHard gc < 1000 := by
  by_cases hd : gc.draw = true
  · simp only [evalHard, hcm, Bool.false_eq_true, if_false, hd, if_true]
    norm_num
  · have hb := hbound (by simpa using hd)
    simp only [evalHard, hcm, Bool.false_eq_true, if_false, hd]
    rw [show ((999.5 : ℚ)) = 1999/2 from by norm_num] at hb
    constructor
    · nlinarith [hb.1]
    · nlinarith [hb.2]

/-- Once the medium loop holds the mate score +1000 (White to move at the
root), no later move strictly beats it, so the held move is kept. -/
theorem mediumLoop_saturate_white (f : Nat → ℚ) :
    ∀ (cs : List (Move × Game)),
      (∀ c ∈ cs, ∀ r, (evaluatePosition .medium f c.2 r).1 ≤ 1000) →
      ∀ (b : Option Move) (ri : Nat),
        (mediumLoop .medium f true cs b (.fin 1000) ri).1 = b := by
  intro cs
  induction cs with
  | nil =>
    intro _ b ri
    rfl
  | cons c rest ih =>
    intro hall b ri
    have hle := hall c (List.mem_cons_self c rest) ri
    simp only [mediumLoop, if_true]
    rw [if_neg (by simpa using not_lt.mpr hle)]
    exact ih (fun c' hc' => hall c' (List.mem_cons_of_mem c hc')) b _

/-- Dual: once the medium loop holds the mate score -1000 (Black to move
at the root), the held move is kept. -/
theorem mediumLoop_saturate_black (f : Nat → ℚ) :
    ∀ (cs : List (Move × Game)),
      (∀ c ∈ cs, ∀ r, -1000 ≤ (evaluatePosition .medium f c.2 r).1) →
      ∀ (b : Option Move) (ri : Nat),
        (mediumLoop .medium f false cs b (.fin (-1000)) ri).1 = b := by
  intro cs
  induction cs with
  | nil =>
    intro _ b ri
    rfl
  | cons c rest ih =>
    intro hall b ri
    have hle := hall c (List.mem_cons_self c rest) ri
    simp only [mediumLoop, Bool.false_eq_true, if_false]
    rw [if_neg (by simpa using not_lt.mpr hle)]
    exact ih (fun c' hc' => hall c' (List.mem_cons_of_mem c hc')) b _

/-- With White to move at the root, the medium one-ply lookahead returns
the first immediately-mating move when one exists and every non-mating
move scores strictly below +1000. -/
theorem mediumLoop_mate_white (f : Nat → ℚ) :
    ∀ (cs : List (Move × Game)) (best : Option Move) (bs : XScore) (ri : Nat),
      bs < .fin 1000 →
      (∃ c ∈ cs, c.2.checkmate = true) →
      (∀ c ∈ cs, c.2.checkmate = true →
        ∀ r, (evaluatePosition .medium f c.2 r).1 = 1000) →
      (∀ c ∈ cs, c.2.checkmate = false →
        ∀ r, (evaluatePosition .medium f c.2 r).1 < 1000) →
      ∃ m gc, (m, gc) ∈ cs ∧ gc.checkmate = true ∧
        (mediumLoop .medium f true cs best bs ri).1 = some m := by
  intro cs
  induction cs with
  | nil =>
    intro best bs ri _ hP _ _
    simp at hP
  | cons c rest ih =>
    intro best bs ri hbs hP hm hn
    have hall_le : ∀ c' ∈ rest, ∀ r, (evaluatePosition .medium f c'.2 r).1 ≤ 1000 := by
      intro c' hc' r
      by_cases hc'm : c'.2.checkmate = true
      · exact le_of_eq (hm c' (List.mem_cons_of_mem c hc') hc'm r)
      · exact le_of_lt (hn c' (List.mem_cons_of_mem c hc')
          (by simpa using hc'm) r)
    cases hc : c.2.checkmate
    · -- head is not a mate
      have hsc := hn c (List.mem_cons_self c rest) hc ri
      have hP' : ∃ c' ∈ rest, c'.2.checkmate = true := by
        rcases hP with ⟨c', hc', hcm'⟩
        rcases List.mem_cons.mp hc' with rfl | hmem
        · rw [hc] at hcm'
          exact absurd hcm' (by simp)
        · exact ⟨c', hmem, hcm'⟩
      have hm' : ∀ c' ∈ rest, c'.2.checkmate = true →
          ∀ r, (evaluatePosition .medium f c'.2 r).1 = 1000 :=
        fun c' hc' => hm c' (List.mem_cons_of_mem c hc')
      have hn' : ∀ c' ∈ rest, c'.2.checkmate = false →
          ∀ r, (evaluatePosition .medium f c'.2 r).1 < 1000 :=
        fun c' hc' => hn c' (List.mem_cons_of_mem c hc')
      simp only [mediumLoop, if_true]
      by_cases hlt : bs < .fin (evaluatePosition .medium f c.2 ri).1
      · rw [if_pos hlt]
        obtain ⟨m, gc, hmem, hgc, hres⟩ := ih (some c.1)
          (.fin (evaluatePosition .medium f c.2 ri).1) _
          (by simpa using hsc) hP' hm' hn'
        exact ⟨m, gc, List.mem_cons_of_mem c hmem, hgc, hres⟩
      · rw [if_neg hlt]
        obtain ⟨m, gc, hmem, hgc, hres⟩ := ih best bs _ hbs hP' hm' hn'
        exact ⟨m, gc, List.mem_cons_of_mem c hmem, hgc, hres⟩
    · -- head is a mate: it is selected and kept
      have hsc := hm c (List.mem_cons_self c rest) hc ri
      simp only [mediumLoop, if_true, hsc]
      rw [if_pos hbs]
      refine ⟨c.1, c.2, List.mem_cons_self c rest, hc, ?_⟩
      exact mediumLoop_saturate_white f rest hall_le (some c.1) _

/-- Dual of `mediumLoop_mate_white` for Black to move at the root. -/
theorem mediumLoop_mate_black (f : Nat → ℚ) :
    ∀ (cs : List (Move × Game)) (best : Option Move) (bs : XScore) (ri : Nat),
      .fin (-1000) < bs →
      (∃ c ∈ cs, c.2.checkmate = true) →
      (∀ c ∈ cs, c.2.checkmate = true →
        ∀ r, (evaluatePosition .medium f c.2 r).1 = -1000) →
      (∀ c ∈ cs, c.2.checkmate = false →
        ∀ r, -1000 < (evaluatePosition .medium f c.2 r).1) →
      ∃ m gc, (m, gc) ∈ cs ∧ gc.checkmate = true ∧
        (mediumLoop .medium f false cs best bs ri).1 = some m := by
  intro cs
  induction cs with
  | nil =>
    intro best bs ri _ hP _ _
    simp at hP
  | cons c rest ih =>
    intro best bs ri hbs hP hm hn
    have hall_ge : ∀ c' ∈ rest, ∀ r, -1000 ≤ (evaluatePosition .medium f c'.2 r).1 := by
      intro c' hc' r
      by_cases hc'm : c'.2.checkmate = true
      · exact ge_of_eq (hm c' (List.mem_cons_of_mem c hc') hc'm r)
      · exact le_of_lt (hn c' (List.mem_cons_of_mem c hc')
          (by simpa using hc'm) r)
    cases hc : c.2.checkmate
    · have hsc := hn c (List.mem_cons_self c rest) hc ri
      have hP' : ∃ c' ∈ rest, c'.2.checkmate = true := by
        rcases hP with ⟨c', hc', hcm'⟩
        rcases List.mem_cons.mp hc' with rfl | hmem
        · rw [hc] at hcm'
          exact absurd hcm' (by simp)
        · exact ⟨c', hmem, hcm'⟩
      have hm' : ∀ c' ∈ rest, c'.2.checkmate = true →
          ∀ r, (evaluatePosition .medium f c'.2 r).1 = -1000 :=
        fun c' hc' => hm c' (List.mem_cons_of_mem c hc')
      have hn' : ∀ c' ∈ rest, c'.2.checkmate = false →
          ∀ r, -1000 < (evaluatePosition .medium f c'.2 r).1 :=
        fun c' hc' => hn c' (List.mem_cons_of_mem c hc')
      simp only [mediumLoop, Bool.false_eq_true, if_false]
      by_cases hlt : XScore.fin (evaluatePosition .medium f c.2 ri).1 < bs
      · rw [if_pos hlt]
        obtain ⟨m, gc, hmem, hgc, hres⟩ := ih (some c.1)
          (.fin (evaluatePosition .medium f c.2 ri).1) _
          (by simpa using hsc) hP' hm' hn'
        exact ⟨m, gc, List.mem_cons_of_mem c hmem, hgc, hres⟩
      · rw [if_neg hlt]
        obtain ⟨m, gc, hmem, hgc, hres⟩ := ih best bs _ hbs hP' hm' hn'
        exact ⟨m, gc, List.mem_cons_of_mem c hmem, hgc, hres⟩
    · have hsc := hm c (List.mem_cons_self c rest) hc ri
      simp only [mediumLoop, Bool.false_eq_true, if_false, hsc]
      rw [if_pos hbs]
      refine ⟨c.1, c.2, List.mem_cons_self c rest, hc, ?_⟩
      exact mediumLoop_saturate_black f rest hall_ge (some c.1) _

/-- Once the depth-1 spec loop holds the mate score +1000 (White root), no
later move strictly beats it, so the held move is kept. -/
theorem specBestLoop_saturate1_white :
    ∀ (cs : List (Move × Game)), (∀ c ∈ cs, evalHard c.2 ≤ 1000) →
      ∀ (b : Option Move), (specBestLoop true 1 cs b (.fin 1000)).1 = b := by
  intro cs
  induction cs with
  | nil =>
    intro _ b
    rfl
  | cons c rest ih =>
    intro hall b
    have hle := hall c (List.mem_cons_self c rest)
    simp only [specBestLoop, if_true]
    rw [specMinimax_eval c.2 (1 - 1) c.2.turn.isWhite (Or.inl rfl)]
    rw [if_neg (by simpa using not_lt.mpr hle)]
    exact ih (fun c' hc' => hall c' (List.mem_cons_of_mem c hc')) b

/-- Dual of `specBestLoop_saturate1_white` for a Black root holding
-1000. -/
theorem specBestLoop_saturate1_black :
    ∀ (cs : List (Move × Game)), (∀ c ∈ cs, -1000 ≤ evalHard c.2) →
      ∀ (b : Option Move), (specBestLoop false 1 cs b (.fin (-1000))).1 = b := by
  intro cs
  induction cs with
  | nil =>
    intro _ b
    rfl
  | cons c rest ih =>
    intro hall b
    have hle := hall c (List.mem_cons_self c rest)
    simp only [specBestLoop, Bool.false_eq_true, if_false]
    rw [specMinimax_eval c.2 (1 - 1) c.2.turn.isWhite (Or.inl rfl)]
    rw [if_neg (by simpa using not_lt.mpr hle)]
    exact ih (fun c' hc' => hall c' (List.mem_cons_of_mem c hc')) b

/-- With White to move at the root, the depth-1 spec loop returns the
first immediately-mating move when one exists and every non-mating move
has hard-tier value strictly below +1000. -/
theorem specBestLoop_mate1_white :
    ∀ (cs : List (Move × Game)) (best : Option Move) (bs : XScore),
      bs < .fin 1000 →
      (∃ c ∈ cs, c.2.checkmate = true) →
      (∀ c ∈ cs, c.2.checkmate = true → evalHard c.2 = 1000) →
      (∀ c ∈ cs, c.2.checkmate = false → evalHard c.2 < 1000) →
      ∃ m gc, (m, gc) ∈ cs ∧ gc.checkmate = true ∧
        (specBestLoop true 1 cs best bs).1 = some m := by
  intro cs
  induction cs with
  | nil =>
    intro best bs _ hP _ _
    simp at hP
  | cons c rest ih =>
    intro best bs hbs hP hm hn
    have hall_le : ∀ c' ∈ rest, evalHard c'.2 ≤ 1000 := by
      intro c' hc'
      by_cases hc'm : c'.2.checkmate = true
      · exact le_of_eq (hm c' (List.mem_cons_of_mem c hc') hc'm)
      · exact le_of_lt (hn c' (List.mem_cons_of_mem c hc') (by simpa using hc'm))
    cases hc : c.2.checkmate
    · have hsc := hn c (List.mem_cons_self c rest) hc
      have hP' : ∃ c' ∈ rest, c'.2.checkmate = true := by
        rcases hP with ⟨c', hc', hcm'⟩
        rcases List.mem_cons.mp hc' with rfl | hmem
        · rw [hc] at hcm'
          exact absurd hcm' (by simp)
        · exact ⟨c', hmem, hcm'⟩
      have hm' : ∀ c' ∈ rest, c'.2.checkmate = true → evalHard c'.2 = 1000 :=
        fun c' hc' => hm c' (List.mem_cons_of_mem c hc')
      have hn' : ∀ c' ∈ rest, c'.2.checkmate = false → evalHard c'.2 < 1000 :=
        fun c' hc' => hn c' (List.mem_cons_of_mem c hc')
      simp only [specBestLoop, if_true]
      rw [specMinimax_eval c.2 (1 - 1) c.2.turn.isWhite (Or.inl rfl)]
      by_cases hlt : bs < .fin (evalHard c.2)
      · rw [if_pos hlt]
        obtain ⟨m, gc, hmem, hgc, hres⟩ := ih (some c.1) (.fin (evalHard c.2))
          (by simpa using hsc) hP' hm' hn'
        exact ⟨m, gc, List.mem_cons_of_mem c hmem, hgc, hres⟩
      · rw [if_neg hlt]
        obtain ⟨m, gc, hmem, hgc, hres⟩ := ih best bs hbs hP' hm' hn'
        exact ⟨m, gc, List.mem_cons_of_mem c hmem, hgc, hres⟩
    · have hsc := hm c (List.mem_cons_self c rest) hc
      simp only [specBestLoop, if_true]
      rw [specMinimax_eval c.2 (1 - 1) c.2.turn.isWhite (Or.inl rfl), hsc]
      rw [if_pos hbs]
      refine ⟨c.1, c.2, List.mem_cons_self c rest, hc, ?_⟩
      exact specBestLoop_saturate1_white rest hall_le (some c.1)

/-- Dual of `specBestLoop_mate1_white` for Black to move at the root. -/
theorem specBestLoop_mate1_black :
    ∀ (cs : List (Move × Game)) (best : Option Move) (bs : XScore),
      .fin (-1000) < bs →
      (∃ c ∈ cs, c.2.checkmate = true) →
      (∀ c ∈ cs, c.2.checkmate = true → evalHard c.2 = -1000) →
      (∀ c ∈ cs, c.2.checkmate = false → -1000 < evalHard c.2) →
      ∃ m gc, (m, gc) ∈ cs ∧ gc.checkmate = true ∧
        (specBestLoop false 1 cs best bs).1 = some m := by
  intro cs
  induction cs with
  | nil =>
    intro best bs _ hP _ _
    simp at hP
  | cons c rest ih =>
    intro best bs hbs hP hm hn
    have hall_ge : ∀ c' ∈ rest, -1000 ≤ evalHard c'.2 := by
      intro c' hc'
      by_cases hc'm : c'.2.checkmate = true
      · exact ge_of_eq (hm c' (List.mem_cons_of_mem c hc') hc'm)
      · exact le_of_lt (hn c' (List.mem_cons_of_mem c hc') (by simpa using hc'm))
    cases hc : c.2.checkmate
    · have hsc := hn c (List.mem_cons_self c rest) hc
      have hP' : ∃ c' ∈ rest, c'.2.checkmate = true := by
        rcases hP with ⟨c', hc', hcm'⟩
        rcases List.mem_cons.mp hc' with rfl | hmem
        · rw [hc] at hcm'
          exact absurd hcm' (by simp)
        · exact ⟨c', hmem, hcm'⟩
      have hm' : ∀ c' ∈ rest, c'.2.checkmate = true → evalHard c'.2 = -1000 :=
        fun c' hc' => hm c' (List.mem_cons_of_mem c hc')
      have hn' : ∀ c' ∈ rest, c'.2.checkmate = false → -1000 < evalHard c'.2 :=
        fun c' hc' => hn c' (List.mem_cons_of_mem c hc')
      simp only [specBestLoop, Bool.false_eq_true, if_false]
      rw [specMinimax_eval c.2 (1 - 1) c.2.turn.isWhite (Or.inl rfl)]
      by_cases hlt : XScore.fin (evalHard c.2) < bs
      · rw [if_pos hlt]
        obtain ⟨m, gc, hmem, hgc, hres⟩ := ih (some c.1) (.fin (evalHard c.2))
          (by simpa using hsc) hP' hm' hn'
        exact ⟨m, gc, List.mem_cons_of_mem c hmem, hgc, hres⟩
      · rw [if_neg hlt]
        obtain ⟨m, gc, hmem, hgc, hres⟩ := ih best bs hbs hP' hm' hn'
        exact ⟨m, gc, List.mem_cons_of_mem c hmem, hgc, hres⟩
    · have hsc := hm c (List.mem_cons_self c rest) hc
      simp only [specBestLoop, Bool.false_eq_true, if_false]
      rw [specMinimax_eval c.2 (1 - 1) c.2.turn.isWhite (Or.inl rfl), hsc]
      rw [if_pos hbs]
      refine ⟨c.1, c.2, List.mem_cons_self c rest, hc, ?_⟩
      exact specBestLoop_saturate1_black rest hall_ge (some c.1)

/-- **C7 (amended)** In a position with a mate-in-1 (realistically
modelled: the side to move alternates, and every non-terminal successor's
board sum stays strictly inside ±999.5 so the terminal score ±1000
dominates even medium-tier noise), `getBestMove` returns an
immediately-mating move at the medium tier for every depth, and at the
hard tier with depth 1 when the deadline never expires.  At hard tier with
depth ≥ 2 the claim fails (see the counterexample): a non-mating move that
also forces mate reaches the same ±1000 score and the first-strictly-better
tie-break keeps it. -/
theorem mateInOne_medium_or_depth1
    (g : Game) (f : Nat → ℚ) (tmo : Nat → Bool) (D T ri ti : Nat)
    (hrng : ∀ j, 0 ≤ f j ∧ f j < 1)
    (hmate : ∃ c ∈ g.legal, c.2.checkmate = true)
    (halt : ∀ c ∈ g.legal, c.2.turn ≠ g.turn)
    (hbound : ∀ c ∈ g.legal, c.2.checkmate = false → c.2.draw = false →
      -999.5 < staticScore c.2 ∧ staticScore c.2 < 999.5) :
    (∃ c ∈ g.legal, c.2.checkmate = true ∧
      (getBestMove ⟨⟨D, .medium, T⟩, f, tmo⟩ g ri ti).1 = some c.1.toAIMove) ∧
    (∃ c ∈ g.legal, c.2.checkmate = true ∧
      (getBestMove ⟨⟨1, .hard, T⟩, f, fun _ => false⟩ g ri ti).1
        = some c.1.toAIMove) := by
  cases hleg : g.legal with
  | nil =>
    rw [hleg] at hmate
    simp at hmate
  | cons m0 rest =>
    rw [hleg] at hmate halt hbound
    have hmem_leg : ∀ c ∈ orderMoves (m0 :: rest), c ∈ m0 :: rest :=
      fun c hc => orderMoves_mem.mp hc
    have hPom : ∃ c ∈ orderMoves (m0 :: rest), c.2.checkmate = true := by
      rcases hmate with ⟨c, hc, hcm⟩
      exact ⟨c, orderMoves_mem.mpr hc, hcm⟩
    have hrange1 : List.range' 1 1 = [1] := by decide
    simp only [getBestMove, hleg]
    cases hturn : g.turn
    · -- White to move at the root
      have hw : g.turn.isWhite = true := by rw [hturn]; rfl
      have hturnC : ∀ c ∈ orderMoves (m0 :: rest), c.2.turn = Color.black := by
        intro c hc
        have ht := halt c (hmem_leg c hc)
        rw [hturn] at ht
        cases hcc : c.2.turn
        · exact absurd hcc ht
        · rfl
      have hmW : ∀ c ∈ orderMoves (m0 :: rest), c.2.checkmate = true →
          ∀ r, (evaluatePosition .medium f c.2 r).1 = 1000 := by
        intro c hc hcm r
        rw [evaluatePosition_cm .medium f c.2 r hcm, hturnC c hc]
        simp
      have hnW : ∀ c ∈ orderMoves (m0 :: rest), c.2.checkmate = false →
          ∀ r, (evaluatePosition .medium f c.2 r).1 < 1000 := by
        intro c hc hcm r
        exact (evaluatePosition_medium_bounds f hrng c.2 r hcm
          (fun hd => hbound c (hmem_leg c hc) hcm hd)).2
      have hmHW : ∀ c ∈ orderMoves (m0 :: rest), c.2.checkmate = true →
          evalHard c.2 = 1000 := by
        intro c hc hcm
        rw [evalHard_cm c.2 hcm, hturnC c hc]
        simp
      have hnHW : ∀ c ∈ orderMoves (m0 :: rest), c.2.checkmate = false →
          evalHard c.2 < 1000 := by
        intro c hc hcm
        exact (evalHard_bounds c.2 hcm
          (fun hd => hbound c (hmem_leg c hc) hcm hd)).2
      simp only [Color.isWhite, if_true]
      constructor
      · obtain ⟨m, gc, hmem, hgc, hres⟩ := mediumLoop_mate_white f
          (orderMoves (m0 :: rest)) none .negInf ri (by simp) hPom hmW hnW
        refine ⟨(m, gc), hmem_leg (m, gc) hmem, hgc, ?_⟩
        rw [hres]
      · obtain ⟨m, gc, hmem, hgc, hres⟩ := specBestLoop_mate1_white
          (orderMoves (m0 :: rest)) none .negInf (by simp) hPom hmHW hnHW
        refine ⟨(m, gc), hmem_leg (m, gc) hmem, hgc, ?_⟩
        rw [hrange1]
        rw [(hardDepths_noTimeout 1 T f (orderMoves (m0 :: rest)) true
          [1] none ri ti).1]
        simp only [List.foldl, ite_true]
        rw [hres]
        rfl
    · -- Black to move at the root
      have hw : g.turn.isWhite = false := by rw [hturn]; rfl
      have hturnC : ∀ c ∈ orderMoves (m0 :: rest), c.2.turn = Color.white := by
        intro c hc
        have ht := halt c (hmem_leg c hc)
        rw [hturn] at ht
        cases hcc : c.2.turn
        · rfl
        · exact absurd hcc ht
      have hmB : ∀ c ∈ orderMoves (m0 :: rest), c.2.checkmate = true →
          ∀ r, (evaluatePosition .medium f c.2 r).1 = -1000 := by
        intro c hc hcm r
        rw [evaluatePosition_cm .medium f c.2 r hcm, hturnC c hc]
        simp
      have hnB : ∀ c ∈ orderMoves (m0 :: rest), c.2.checkmate = false →
          ∀ r, -1000 < (evaluatePosition .medium f c.2 r).1 := by
        intro c hc hcm r
        exact (evaluatePosition_medium_bounds f hrng c.2 r hcm
          (fun hd => hbound c (hmem_leg c hc) hcm hd)).1
      have hmHB : ∀ c ∈ orderMoves (m0 :: rest), c.2.checkmate = true →
          evalHard c.2 = -1000 := by
        intro c hc hcm
        rw [evalHard_cm c.2 hcm, hturnC c hc]
        simp
      have hnHB : ∀ c ∈ orderMoves (m0 :: rest), c.2.checkmate = false →
          -1000 < evalHard c.2 := by
        intro c hc hcm
        exact (evalHard_bounds c.2 hcm
          (fun hd => hbound c (hmem_leg c hc) hcm hd)).1
      simp only [Color.isWhite, Bool.false_eq_true, if_false]
      constructor
      · obtain ⟨m, gc, hmem, hgc, hres⟩ := mediumLoop_mate_black f
          (orderMoves (m0 :: rest)) none .posInf ri (by simp) hPom hmB hnB
        refine ⟨(m, gc), hmem_leg (m, gc) hmem, hgc, ?_⟩
        rw [hres]
      · obtain ⟨m, gc, hmem, hgc, hres⟩ := specBestLoop_mate1_black
          (orderMoves (m0 :: rest)) none .posInf (by simp) hPom hmHB hnHB
        refine ⟨(m, gc), hmem_leg (m, gc) hmem, hgc, ?_⟩
        rw [hrange1]
        rw [(hardDepths_noTimeout 1 T f (orderMoves (m0 :: rest)) false
          [1] none ri ti).1]
        simp only [List.foldl, Bool.false_eq_true, ite_false]
        rw [hres]
        rfl

/-- Witness: on `wRoot2` (White to move, quiet move ordered before the
mate) both the medium tier and the hard tier at depth 1 return the mating
move `d1h5`. -/
theorem mateInOne_medium_or_depth1_witness :
    (∃ c ∈ wRoot2.legal, c.2.checkmate = true ∧
      (getBestMove ⟨⟨3, .medium, 800⟩, fun _ => (1 : ℚ)/2, fun _ => false⟩
        wRoot2 0 0).1 = some c.1.toAIMove) ∧
    (∃ c ∈ wRoot2.legal, c.2.checkmate = true ∧
      (getBestMove ⟨⟨1, .hard, 800⟩, fun _ => (1 : ℚ)/2, fun _ => false⟩
        wRoot2 0 0).1 = some c.1.toAIMove) :=
  mateInOne_medium_or_depth1 wRoot2 (fun _ => (1 : ℚ)/2) (fun _ => false) 3 800 0 0
    (fun _ => by constructor <;> norm_num)
    (by with_unfolding_all decide)
    (by with_unfolding_all decide)
    (by with_unfolding_all decide)

/-- **C7 is false as stated** at the hard tier with depth ≥ 2: on `cRoot`
(a realistic mate-in-1 position — well-formed game tree, alternating side
to move, every non-terminal successor's board sum strictly inside ±999.5)
the engine at hard tier, depth 3, with an unexpired deadline returns the
capture `h1h7`, which does **not** give immediate checkmate (it only
forces mate in two), instead of the immediately mating `d1h5`: the capture
is ordered first, also reaches the terminal score +1000, and the
first-strictly-better tie-break keeps it. -/
theorem mateInOne_depth3_counterexample :
    Game.wf cRoot = true ∧
    (∃ c ∈ cRoot.legal, c.2.checkmate = true) ∧
    (∀ c ∈ cRoot.legal, c.2.turn ≠ cRoot.turn) ∧
    (∀ c ∈ cRoot.legal, c.2.checkmate = false → c.2.draw = false →
      -999.5 < staticScore c.2 ∧ staticScore c.2 < 999.5) ∧
    (getBestMove ⟨⟨3, .hard, 1500⟩, fun _ => (1 : ℚ)/2, fun _ => false⟩
      cRoot 0 0).1 = some ⟨"h1", "h7", none⟩ ∧
    (∀ c ∈ cRoot.legal, c.1.toAIMove = ⟨"h1", "h7", none⟩ →
      c.2.checkmate = false) := by
  refine ⟨?_, ?_, ?_, ?_, ?_, ?_⟩ <;> with_unfolding_all decide
